import Mathlib

/-!
Verification of the Akita Meshtastic-Meshcore Bridge (AMMB).

This file shallowly embeds the message-translation core of the bridge:

* `ammb/protocol.py` — the JSON-newline codec (`JsonNewlineProtocol`), the
  fixed binary frame codec (`CompanionFrameProtocol`) and the factory
  `get_protocol_handler`;
* `ammb/config_handler.py` — the protocol-name validation step of
  `load_config`;
* `ammb/meshcore_handler.py` — protocol-handler selection in `__init__` and
  the translate-and-enqueue tail of `_meshcore_receiver_loop`;
* `ammb/meshtastic_handler.py` — the `_on_meshtastic_receive` callback and
  the format check of `_meshtastic_sender_loop`;
* `ammb/bridge.py` — the startup sequencing of `Bridge.run`.

Python values that can travel through these functions are modelled by the
inductive `PyVal` (JSON-representable values plus an opaque `foreign`
constructor standing for any object `json.dumps` rejects with `TypeError`).
Floats are not modelled (no claim depends on them); Python strings are
modelled by Lean `String`, which excludes lone UTF-16 surrogates.  Byte
strings are `List Nat` with each entry intended to be `< 256`.
-/

/-- A Python dictionary key as it can appear in a message dict.
`json.dumps` serializes `str`, `int`, `bool` and `None` keys (floats are not
modelled); all of these are hashable and JSON-serializable. -/
inductive PyKey where
  | str (s : String)
  | int (i : Int)
  | bool (b : Bool)
  | null
deriving DecidableEq, Repr

/-- A Python value as it can appear in a message payload.  `foreign` stands
for any object that is not JSON-representable (`json.dumps` raises
`TypeError` on it); the `tag` only keeps distinct such objects distinct. -/
inductive PyVal where
  | null
  | bool (b : Bool)
  | int (i : Int)
  | str (s : String)
  | list (xs : List PyVal)
  | dict (kvs : List (PyKey × PyVal))
  | foreign (tag : Nat)
deriving Repr

/-- Python truthiness (`bool(v)`) for the modelled values. -/
def pyTruthy : PyVal → Bool
  | .null => false
  | .bool b => b
  | .int i => i ≠ 0
  | .str s => s ≠ ""
  | .list xs => !xs.isEmpty
  | .dict kvs => !kvs.isEmpty
  | .foreign _ => true

/-- `v is None` for the modelled values. -/
def pyIsNull : PyVal → Bool
  | .null => true
  | _ => false

/-- `d.get(name)`: the value stored under the string key `name`, defaulting
to `None` when the key is absent (Python's `dict.get` one-argument form).
A string key is equal only to the same string, so lookup compares against
`PyKey.str name`. -/
def pyGet (kvs : List (PyKey × PyVal)) (name : String) : PyVal :=
  match kvs.find? (fun kv => kv.1 = PyKey.str name) with
  | some kv => kv.2
  | none => .null

/-- `d.get(name, dflt)`: like `pyGet` but with an explicit default, returned
only when the key is absent (a stored `None` is returned as `None`). -/
def pyGetD (kvs : List (PyKey × PyVal)) (name : String) (dflt : PyVal) : PyVal :=
  match kvs.find? (fun kv => kv.1 = PyKey.str name) with
  | some kv => kv.2
  | none => dflt

/-- `name in d` for a string key. -/
def pyHasKey (kvs : List (PyKey × PyVal)) (name : String) : Bool :=
  (kvs.find? (fun kv => kv.1 = PyKey.str name)).isSome

/-- The decimal digit character for `k < 10` (`'0'` is code 48). -/
def decDigit (k : Nat) : Char := Char.ofNat (48 + k)

/-- Digit characters of `n` in base `base` (most significant first), with
`dig` rendering one digit.  `fuel` makes the recursion structural (and so
kernel-computable); any `fuel > n` gives the digits of `n` when
`base ≥ 2`. -/
def digitsCore (base : Nat) (dig : Nat → Char) : Nat → Nat → List Char
  | 0, _ => []
  | fuel + 1, n =>
    if n < base then [dig n]
    else digitsCore base dig fuel (n / base) ++ [dig (n % base)]

/-- Decimal digit characters of `n`, most significant first
(`repr` of a non-negative Python int). -/
def natChars (n : Nat) : List Char := digitsCore 10 decDigit (n + 1) n

/-- Characters of `repr(i)` for a Python int: optional minus sign followed by
decimal digits.  This is the text `json.dumps` emits for an int. -/
def intChars (i : Int) : List Char :=
  if i < 0 then '-' :: natChars i.natAbs else natChars i.natAbs

/-- The lowercase hex digit character for `k < 16` (`'a'` is code 97). -/
def hexDigit (k : Nat) : Char :=
  if k < 10 then Char.ofNat (48 + k) else Char.ofNat (87 + k)

/-- Lowercase hex digit characters of `n`, most significant first
(`f"{n:x}"` for a non-negative Python int). -/
def natHexChars (n : Nat) : List Char := digitsCore 16 hexDigit (n + 1) n

/-- `bytes.hex()`: two lowercase hex digits per byte. -/
def bytesHexChars (bs : List Nat) : List Char :=
  bs.flatMap (fun b => [hexDigit (b / 16 % 16), hexDigit (b % 16)])

/-- `int.from_bytes(_, "little")` on a 2-byte slice. -/
def leWord (b0 b1 : Nat) : Nat := b0 + 256 * b1

/-- `int.from_bytes(_, "little")` on a 4-byte slice. -/
def leQuad (b0 b1 b2 b3 : Nat) : Nat := b0 + 256 * (b1 + 256 * (b2 + 256 * b3))

/-- The four lowercase hex digits of `n % 0x10000`, as in a `\uXXXX` escape. -/
def uHex4 (n : Nat) : List Char :=
  [hexDigit (n / 4096 % 16), hexDigit (n / 256 % 16), hexDigit (n / 16 % 16), hexDigit (n % 16)]

/-- One character escaped as `json.dumps` (default `ensure_ascii=True`) does:
the two-character escapes for `"`, `\` and the common control characters, `\uXXXX`
for the other controls and for everything outside printable ASCII, with a
UTF-16 surrogate pair for code points above `0xFFFF`. -/
def escChar (c : Char) : List Char :=
  if c = '"' then ['\\', '"']
  else if c = '\\' then ['\\', '\\']
  else if c = '\n' then ['\\', 'n']
  else if c = '\r' then ['\\', 'r']
  else if c = '\t' then ['\\', 't']
  else if c.toNat = 8 then ['\\', 'b']
  else if c.toNat = 12 then ['\\', 'f']
  else if c.toNat < 0x20 ∨ 0x7e < c.toNat then
    if c.toNat < 0x10000 then '\\' :: 'u' :: uHex4 c.toNat
    else
      ('\\' :: 'u' :: uHex4 (0xd800 + (c.toNat - 0x10000) / 0x400)) ++
      ('\\' :: 'u' :: uHex4 (0xdc00 + (c.toNat - 0x10000) % 0x400))
  else [c]

/-- A JSON string literal for `s`: quote, escaped characters, quote. -/
def strLit (s : String) : List Char :=
  '"' :: (s.data.flatMap escChar ++ ['"'])

/-- The JSON text `json.dumps` uses for a dict key: string keys are quoted
and escaped; int, bool and `None` keys are coerced to their JSON text and
quoted (`{1: 'a'}` dumps as `{"1": "a"}`). -/
def keyChars : PyKey → List Char
  | .str s => strLit s
  | .int i => '"' :: (intChars i ++ ['"'])
  | .bool true => '"' :: ('t' :: 'r' :: 'u' :: 'e' :: ['"'])
  | .bool false => '"' :: ('f' :: 'a' :: 'l' :: 's' :: 'e' :: ['"'])
  | .null => '"' :: ('n' :: 'u' :: 'l' :: 'l' :: ['"'])

mutual
/-- The characters of `json.dumps(v)` with the default options: compact
values, item separator `", "`, key separator `": "`, `ensure_ascii` escapes.
On `foreign` (where Python raises `TypeError`) the result is unspecified
(the encoder below guards with `jsonOk` and never dumps such a value). -/
def dumpsV : PyVal → List Char
  | .null => 'n' :: ['u', 'l', 'l']
  | .bool true => 't' :: ['r', 'u', 'e']
  | .bool false => 'f' :: ['a', 'l', 's', 'e']
  | .int i => intChars i
  | .str s => strLit s
  | .list xs => '[' :: (dumpsItems xs ++ [']'])
  | .dict kvs => '{' :: (dumpsEntries kvs ++ ['}'])
  | .foreign _ => []

/-- `", ".join` of the dumped elements of a list. -/
def dumpsItems : List PyVal → List Char
  | [] => []
  | x :: xs => dumpsV x ++ dumpsItemsTail xs

/-- The `", "`-separated tail of a dumped list. -/
def dumpsItemsTail : List PyVal → List Char
  | [] => []
  | x :: xs => ',' :: ' ' :: (dumpsV x ++ dumpsItemsTail xs)

/-- `", ".join` of the dumped `key: value` entries of a dict. -/
def dumpsEntries : List (PyKey × PyVal) → List Char
  | [] => []
  | (k, v) :: kvs => keyChars k ++ ':' :: ' ' :: (dumpsV v ++ dumpsEntriesTail kvs)

/-- The `", "`-separated tail of a dumped dict. -/
def dumpsEntriesTail : List (PyKey × PyVal) → List Char
  | [] => []
  | (k, v) :: kvs => ',' :: ' ' :: (keyChars k ++ ':' :: ' ' :: (dumpsV v ++ dumpsEntriesTail kvs))
end

mutual
/-- Whether `json.dumps(v)` succeeds: true exactly when no `foreign` value
occurs anywhere in `v` (Python raises `TypeError` at the first one). -/
def jsonOk : PyVal → Bool
  | .null => true
  | .bool _ => true
  | .int _ => true
  | .str _ => true
  | .list xs => jsonOkItems xs
  | .dict kvs => jsonOkEntries kvs
  | .foreign _ => false

/-- `jsonOk` over the elements of a list. -/
def jsonOkItems : List PyVal → Bool
  | [] => true
  | x :: xs => jsonOk x && jsonOkItems xs

/-- `jsonOk` over the values of a dict. -/
def jsonOkEntries : List (PyKey × PyVal) → Bool
  | [] => true
  | (_, v) :: kvs => jsonOk v && jsonOkEntries kvs
end

mutual
/-- `jsonOk` strengthened with: every dict key, at every nesting level, is a
`str` key.  Values in the image of `json.loads` satisfy this, and on this
domain the JSON round trip is the identity. -/
def strKeyed : PyVal → Bool
  | .null => true
  | .bool _ => true
  | .int _ => true
  | .str _ => true
  | .list xs => strKeyedItems xs
  | .dict kvs => strKeyedEntries kvs
  | .foreign _ => false

/-- `strKeyed` over the elements of a list. -/
def strKeyedItems : List PyVal → Bool
  | [] => true
  | x :: xs => strKeyed x && strKeyedItems xs

/-- `strKeyed` over the entries of a dict: string keys, recursive values. -/
def strKeyedEntries : List (PyKey × PyVal) → Bool
  | [] => true
  | (k, v) :: kvs =>
    (match k with | .str _ => true | _ => false) && strKeyed v && strKeyedEntries kvs
end

/-- JSON insignificant whitespace, as `json.loads` skips between tokens. -/
def jsonWs (c : Char) : Bool := c = ' ' || c = '\t' || c = '\n' || c = '\r'

/-- Drop leading JSON whitespace. -/
def wsSkip : List Char → List Char
  | c :: cs => if jsonWs c then wsSkip cs else c :: cs
  | [] => []

/-- The value of one hex digit character, either case. -/
def hexVal (c : Char) : Option Nat :=
  if '0' ≤ c ∧ c ≤ '9' then some (c.toNat - 48)
  else if 'a' ≤ c ∧ c ≤ 'f' then some (c.toNat - 87)
  else if 'A' ≤ c ∧ c ≤ 'F' then some (c.toNat - 55)
  else none

/-- The value of a four-hex-digit group, as in a `\uXXXX` escape. -/
def hexQuad (a b c d : Char) : Option Nat :=
  match hexVal a, hexVal b, hexVal c, hexVal d with
  | some va, some vb, some vc, some vd => some (((va * 16 + vb) * 16 + vc) * 16 + vd)
  | _, _, _, _ => none

/-- The single-character JSON escapes accepted after a backslash. -/
def shortEsc (e : Char) : Option Char :=
  if e = '"' then some '"'
  else if e = '\\' then some '\\'
  else if e = '/' then some '/'
  else if e = 'b' then some (Char.ofNat 8)
  else if e = 'f' then some (Char.ofNat 12)
  else if e = 'n' then some '\n'
  else if e = 'r' then some '\r'
  else if e = 't' then some '\t'
  else none

/-- The low-surrogate half of a `\uXXXX` surrogate pair: after a high
surrogate `n`, the input must continue with `\uXXXX` carrying a low
surrogate, and the two halves recombine into one code point. -/
def escPair (n : Nat) (cs3 : List Char) : Option (Char × List Char) :=
  match cs3 with
  | x1 :: x2 :: a2 :: b2 :: c3 :: d2 :: cs4 =>
    if x1 = '\\' ∧ x2 = 'u' then
      match hexQuad a2 b2 c3 d2 with
      | none => none
      | some m =>
        if 0xdc00 ≤ m ∧ m ≤ 0xdfff then
          some (Char.ofNat (0x10000 + (n - 0xd800) * 0x400 + (m - 0xdc00)), cs4)
        else none
    else none
  | _ => none

/-- A `\uXXXX` escape, taken after `\u` has been consumed: four hex digits,
then surrogate-pair recombination via `escPair` for a high surrogate.  A
lone surrogate (which Python would keep as a lone-surrogate `str` element,
a value with no Lean `Char` counterpart) makes the model fail;
`json.dumps` output never contains one. -/
def escU (cs2 : List Char) : Option (Char × List Char) :=
  match cs2 with
  | a :: b :: c2 :: d :: cs3 =>
    match hexQuad a b c2 d with
    | none => none
    | some n =>
      if 0xd800 ≤ n ∧ n ≤ 0xdbff then escPair n cs3
      else if 0xdc00 ≤ n ∧ n ≤ 0xdfff then none
      else some (Char.ofNat n, cs3)
  | _ => none

/-- One escape sequence, taken after a backslash has been consumed: `\u`
escapes via `escU`, anything else via the short-escape table.  Returns the
decoded character and the remaining input. -/
def escStep (cs : List Char) : Option (Char × List Char) :=
  match cs with
  | [] => none
  | e :: cs2 =>
    if e = 'u' then escU cs2
    else
      match shortEsc e with
      | some ch => some (ch, cs2)
      | none => none

/-- Body of a JSON string literal after the opening quote, as `json.loads`
scans it (strict mode): literal characters up to the closing quote, escape
sequences via `escStep`, raw control characters rejected.  Returns the
decoded characters and the input after the closing quote.  `fuel` makes the
recursion structural; each step consumes at least one input character, so
any `fuel` above the input length is enough. -/
def pStrBody : Nat → List Char → List Char → Option (List Char × List Char)
  | 0, _, _ => none
  | fuel + 1, acc, inp =>
    match inp with
    | [] => none
    | c :: cs =>
      if c = '"' then some (acc.reverse, cs)
      else if c = '\\' then
        match escStep cs with
        | some (ch, cs2) => pStrBody fuel (ch :: acc) cs2
        | none => none
      else if c.toNat < 0x20 then none
      else pStrBody fuel (c :: acc) cs

/-- The leading run of decimal digit characters and the remainder. -/
def grabDigits : List Char → List Char × List Char
  | c :: cs =>
    if c.isDigit then
      match grabDigits cs with
      | (ds, r) => (c :: ds, r)
    else ([], c :: cs)
  | [] => ([], [])

/-- The natural number denoted by a run of decimal digit characters. -/
def digitsNat (ds : List Char) : Nat :=
  ds.foldl (fun a c => a * 10 + (c.toNat - 48)) 0

/-- A JSON number parsed as a Python int: optional minus sign and a digit
run.  A following `.`, `e` or `E` would make it a float literal, which this
model does not represent, so the parser fails there (Python would produce a
float); `json.dumps` output for modelled values never contains one. -/
def pNum (cs : List Char) : Option (Int × List Char) :=
  let (isNeg, cs1) := match cs with | '-' :: t1 => (true, t1) | _ => (false, cs)
  match grabDigits cs1 with
  | (ds, r) =>
    if ds.isEmpty then none
    else
      let keep : Bool := match r with
        | c :: _ => !(c = '.' || c = 'e' || c = 'E')
        | [] => true
      if keep then
        some (if isNeg then -(digitsNat ds : Int) else (digitsNat ds : Int), r)
      else none

mutual
/-- One JSON value, as `json.loads`'s scanner dispatches on the first
character: `null`/`true`/`false` keywords, string, array, object or number.
`fuel` bounds the recursion depth (any fuel above the input length is
enough).  Returns the value and the unconsumed remainder. -/
def pVal : Nat → List Char → Option (PyVal × List Char)
  | 0, _ => none
  | fuel + 1, cs =>
    match cs with
    | 'n' :: 'u' :: 'l' :: 'l' :: r => some (.null, r)
    | 't' :: 'r' :: 'u' :: 'e' :: r => some (.bool true, r)
    | 'f' :: 'a' :: 'l' :: 's' :: 'e' :: r => some (.bool false, r)
    | '"' :: r =>
      match pStrBody (r.length + 1) [] r with
      | some (content, r2) => some (.str (String.mk content), r2)
      | none => none
    | '[' :: r =>
      match wsSkip r with
      | ']' :: r2 => some (.list [], r2)
      | r2 =>
        match pItems fuel r2 with
        | some (xs, r3) => some (.list xs, r3)
        | none => none
    | '{' :: r =>
      match wsSkip r with
      | '}' :: r2 => some (.dict [], r2)
      | r2 =>
        match pEntries fuel r2 with
        | some (kvs, r3) => some (.dict kvs, r3)
        | none => none
    | c :: _ =>
      if c = '-' ∨ c.isDigit then
        match pNum cs with
        | some (i, r) => some (.int i, r)
        | none => none
      else none
    | [] => none

/-- One or more comma-separated array elements followed by `]`, with the
whitespace skips of `json.loads`'s array scanner. -/
def pItems : Nat → List Char → Option (List PyVal × List Char)
  | 0, _ => none
  | fuel + 1, cs =>
    match pVal fuel cs with
    | none => none
    | some (v, r) =>
      match wsSkip r with
      | ',' :: r2 =>
        match pItems fuel (wsSkip r2) with
        | some (vs, r3) => some (v :: vs, r3)
        | none => none
      | ']' :: r2 => some ([v], r2)
      | _ => none

/-- One or more `"key": value` object members followed by `}`, with the
whitespace skips of `json.loads`'s object scanner.  Keys are always decoded
as strings. -/
def pEntries : Nat → List Char → Option (List (PyKey × PyVal) × List Char)
  | 0, _ => none
  | fuel + 1, cs =>
    match cs with
    | '"' :: r =>
      match pStrBody (r.length + 1) [] r with
      | none => none
      | some (key, r1) =>
        match wsSkip r1 with
        | ':' :: r2 =>
          match pVal fuel (wsSkip r2) with
          | none => none
          | some (v, r3) =>
            match wsSkip r3 with
            | ',' :: r4 =>
              match pEntries fuel (wsSkip r4) with
              | some (kvs, r5) => some ((.str (String.mk key), v) :: kvs, r5)
              | none => none
            | '}' :: r4 => some ([(.str (String.mk key), v)], r4)
            | _ => none
        | _ => none
    | _ => none
end

/-- `json.loads` on a character sequence: skip leading whitespace, scan one
value, and require only whitespace to remain (anything else is the "Extra
data" error).  Duplicate object keys are kept in order here where Python's
dict constructor would keep the last; the two agree on any input without
duplicate keys, which covers every dict that round-trips. -/
def loadsChars (cs : List Char) : Option PyVal :=
  match pVal (cs.length + 1) (wsSkip cs) with
  | some (v, r) => if (wsSkip r).isEmpty then some v else none
  | none => none

/-- Whether a byte is a UTF-8 continuation byte (`0x80`–`0xbf`). -/
def utf8Cont (b : Nat) : Bool := 128 ≤ b && b ≤ 191

/-- The UTF-8 encoding of one character. -/
def utf8Char (c : Char) : List Nat :=
  let n := c.toNat
  if n < 0x80 then [n]
  else if n < 0x800 then [0xc0 + n / 64, 0x80 + n % 64]
  else if n < 0x10000 then [0xe0 + n / 4096, 0x80 + n / 64 % 64, 0x80 + n % 64]
  else [0xf0 + n / 0x40000, 0x80 + n / 4096 % 64, 0x80 + n / 64 % 64, 0x80 + n % 64]

/-- `str.encode('utf-8')` over the characters of a string. -/
def utf8Bytes (cs : List Char) : List Nat := cs.flatMap utf8Char

/-- `bytes.decode('utf-8', errors=...)` where `repl` is what an invalid or
truncated sequence produces (`[]` for `errors='ignore'`, `[U+FFFD]` for
`errors='replace'`).  Valid sequences (with the usual overlong, surrogate
and range exclusions) decode exactly; after an invalid sequence the
resynchronisation point is approximate (CPython restarts at the first
non-continuation byte), and no theorem below depends on the invalid cases. -/
def utf8DecodeCore (repl : List Char) : Nat → List Nat → List Char
  | 0, _ => []
  | _ + 1, [] => []
  | fuel + 1, b :: bs =>
    if b < 0x80 then Char.ofNat b :: utf8DecodeCore repl fuel bs
    else if 0xc2 ≤ b ∧ b ≤ 0xdf then
      match bs with
      | b1 :: bs1 =>
        if utf8Cont b1 then
          Char.ofNat ((b - 0xc0) * 64 + (b1 - 0x80)) :: utf8DecodeCore repl fuel bs1
        else repl ++ utf8DecodeCore repl fuel bs1
      | [] => repl
    else if 0xe0 ≤ b ∧ b ≤ 0xef then
      match bs with
      | b1 :: b2 :: bs2 =>
        if utf8Cont b1 && utf8Cont b2 then
          let n := ((b - 0xe0) * 64 + (b1 - 0x80)) * 64 + (b2 - 0x80)
          if 0x800 ≤ n ∧ ¬(0xd800 ≤ n ∧ n ≤ 0xdfff) then
            Char.ofNat n :: utf8DecodeCore repl fuel bs2
          else repl ++ utf8DecodeCore repl fuel bs2
        else repl ++ utf8DecodeCore repl fuel bs2
      | _ => repl
    else if 0xf0 ≤ b ∧ b ≤ 0xf4 then
      match bs with
      | b1 :: b2 :: b3 :: bs3 =>
        if utf8Cont b1 && utf8Cont b2 && utf8Cont b3 then
          let n := (((b - 0xf0) * 64 + (b1 - 0x80)) * 64 + (b2 - 0x80)) * 64 + (b3 - 0x80)
          if 0x10000 ≤ n ∧ n ≤ 0x10ffff then
            Char.ofNat n :: utf8DecodeCore repl fuel bs3
          else repl ++ utf8DecodeCore repl fuel bs3
        else repl ++ utf8DecodeCore repl fuel bs3
      | _ => repl
    else repl ++ utf8DecodeCore repl fuel bs

/-- `utf8DecodeCore` with enough fuel to consume the whole input (each step
consumes at least one byte). -/
def utf8DecodeWith (repl : List Char) (bs : List Nat) : List Char :=
  utf8DecodeCore repl bs.length bs

/-- Whitespace stripped by `str.strip()`, restricted to the ASCII range
(the full Unicode whitespace set is not modelled; every theorem below
strips ASCII-only text). -/
def pyWsChar (c : Char) : Bool :=
  c = ' ' || c = '\t' || c = '\n' || c = '\r' || c.toNat = 11 || c.toNat = 12

/-- `str.strip()`: drop leading and trailing whitespace. -/
def pyStripChars (cs : List Char) : List Char :=
  ((cs.dropWhile pyWsChar).reverse.dropWhile pyWsChar).reverse

/-- `JsonNewlineProtocol.encode`: `json.dumps(data).encode('utf-8') + b'\n'`,
or `None` when `json.dumps` raises (`TypeError`/`ValueError` on a
non-JSON-representable value, caught in the source and logged). -/
def jsonNewlineEncode (data : PyVal) : Option (List Nat) :=
  if jsonOk data then some (utf8Bytes (dumpsV data) ++ [10]) else none

/-- `JsonNewlineProtocol.decode`: decode UTF-8 leniently (`errors='ignore'`),
strip, return `None` on an empty line, parse JSON, and reject any JSON value
that is not an object.  All parse failures are `None`. -/
def jsonNewlineDecode (line : List Nat) : Option PyVal :=
  let t := pyStripChars (utf8DecodeWith [] line)
  if t.isEmpty then none
  else
    match loadsChars t with
    | some (.dict kvs) => some (.dict kvs)
    | some _ => none
    | none => none

/-- `CompanionFrameProtocol.decode` on a byte string: reject inputs shorter
than 4 bytes, check the start marker (`0x3E` outbound / `0x3C` inbound),
read the 2-byte little-endian declared length, slice the payload and reject
it as incomplete when fewer bytes are available than declared, then build
the message dict keyed on the payload's first byte: code 7 (13+ bytes) and
code 8 (9+ bytes) decode structured fields, anything else dumps the rest of
the payload as hex.  In the zero-length-payload case the Python source
raises `IndexError` at `payload[0]` (before its `try`), which the caller's
catch-all treats as a loop error; no claim distinguishes that from failure,
so it is modelled as `none`. -/
def companionDecode (frame : List Nat) : Option (List (PyKey × PyVal)) :=
  if frame.length < 4 then none
  else
    let start := frame.getD 0 0
    if start = 0x3e ∨ start = 0x3c then
      let len := leWord (frame.getD 1 0) (frame.getD 2 0)
      let payload := (frame.drop 3).take len
      if payload.length < len then none
      else
        match payload with
        | [] => none
        | code :: _ =>
          let base : List (PyKey × PyVal) :=
            [(.str "direction", .str (if start = 0x3e then "outbound" else "inbound")),
             (.str "code", .int (code : Int))]
          if code = 7 ∧ 13 ≤ len then
            some (base ++
              [(.str "pubkey_prefix", .str (String.mk (bytesHexChars ((payload.drop 1).take 6)))),
               (.str "path_len", .int (payload.getD 7 0 : Int)),
               (.str "txt_type", .int (payload.getD 8 0 : Int)),
               (.str "sender_timestamp",
                .int (leQuad (payload.getD 9 0) (payload.getD 10 0)
                      (payload.getD 11 0) (payload.getD 12 0) : Int)),
               (.str "text", .str (String.mk (utf8DecodeWith [] (payload.drop 13))))])
          else if code = 8 ∧ 9 ≤ len then
            some (base ++
              [(.str "channel_idx", .int (payload.getD 1 0 : Int)),
               (.str "path_len", .int (payload.getD 2 0 : Int)),
               (.str "txt_type", .int (payload.getD 3 0 : Int)),
               (.str "sender_timestamp",
                .int (leQuad (payload.getD 4 0) (payload.getD 5 0)
                      (payload.getD 6 0) (payload.getD 7 0) : Int)),
               (.str "text", .str (String.mk (utf8DecodeWith [] (payload.drop 8))))])
          else
            some (base ++ [(.str "payload", .str (String.mk (bytesHexChars (payload.drop 1))))])
    else none

/-- ASCII lowercasing of one character, the fragment of `str.lower()` the
registry needs (all registered names are ASCII; non-ASCII characters are
left unchanged, where full Unicode lowercasing could differ, but such input
matches no registered name either way). -/
def lowerChar (c : Char) : Char :=
  if 65 ≤ c.toNat ∧ c.toNat ≤ 90 then Char.ofNat (c.toNat + 32) else c

/-- `str.lower()` restricted to ASCII case mapping. -/
def pyLower (s : String) : String := String.mk (s.data.map lowerChar)

/-- The three runtime shapes a `MeshcoreHandler.protocol_handler` can take:
the two registered protocol classes, and the `DummyHandler` that
`MeshcoreHandler.__init__` installs when `get_protocol_handler` raises. -/
inductive Codec where
  | jsonNewline
  | companionFrame
  | dummy
deriving DecidableEq, Repr

/-- The `_protocol_handlers` registry of `ammb/protocol.py`. -/
def protocolRegistry : List (String × Codec) :=
  [("json_newline", .jsonNewline), ("companion_frame", .companionFrame)]

/-- `get_protocol_handler`: look the lowercased name up in the registry and
return an instance of the registered class, or raise `ValueError` (modelled
as `Except.error`) when the name is not registered. -/
def getProtocolHandler (protocolName : String) : Except String Codec :=
  match protocolRegistry.find? (fun e => e.1 = pyLower protocolName) with
  | some e => .ok e.2
  | none => .error ("Unsupported Meshcore protocol: " ++ protocolName)

/-- `VALID_MESHCORE_PROTOCOLS` from `ammb/config_handler.py`.  Note that it
contains only `json_newline`: `companion_frame` is implemented but not
listed. -/
def validMeshcoreProtocols : List String := ["json_newline"]

/-- The `MESHCORE_PROTOCOL` validation step of `load_config`: lowercase the
configured name and, when it is not in `validMeshcoreProtocols`, log a
warning **but proceed with that very name** (the strict `return None`
alternative is commented out in the source).  The returned flag records
whether the warning was logged; there is no rejection outcome. -/
def configProtocolStep (raw : String) : String × Bool :=
  let p := pyLower raw
  (p, !(validMeshcoreProtocols.contains p))

/-- Protocol-handler selection in `MeshcoreHandler.__init__`: on a
`ValueError` from `get_protocol_handler` it logs a critical message and
installs a `DummyHandler` whose `encode` and `decode` return `None` for
every input — construction never fails. -/
def meshcoreInitCodec (protocolName : String) : Codec :=
  match getProtocolHandler protocolName with
  | .ok c => c
  | .error _ => .dummy

/-- `encode` of each handler shape: the JSON-newline encoder;
`CompanionFrameProtocol.encode`, which logs "not implemented" and returns
`None` for every input; and the dummy's constant `None`. -/
def codecEncode : Codec → PyVal → Option (List Nat)
  | .jsonNewline, d => jsonNewlineEncode d
  | .companionFrame, _ => none
  | .dummy, _ => none

/-- `decode` of each handler shape. -/
def codecDecode : Codec → List Nat → Option PyVal
  | .jsonNewline, l => jsonNewlineDecode l
  | .companionFrame, l => (companionDecode l).map PyVal.dict
  | .dummy, _ => none

/-- The apostrophe character, written by code to keep it out of the text. -/
def quoteChar : Char := Char.ofNat 39

mutual
/-- A simplified `repr()` for modelled values (`None`/`True`/`False`,
decimal ints, quoted strings without escaping, bracketed containers).  Only
`pyStr` uses it, and no claim inspects the produced text beyond it being a
string, so the unescaped-quote simplification is harmless. -/
def reprChars : PyVal → List Char
  | .null => ['N', 'o', 'n', 'e']
  | .bool true => ['T', 'r', 'u', 'e']
  | .bool false => ['F', 'a', 'l', 's', 'e']
  | .int i => intChars i
  | .str s => quoteChar :: (s.data ++ [quoteChar])
  | .list xs => '[' :: (reprItems xs ++ [']'])
  | .dict kvs => '{' :: (reprEntries kvs ++ ['}'])
  | .foreign tag => '<' :: (natChars tag ++ ['>'])

/-- `", ".join` of element reprs. -/
def reprItems : List PyVal → List Char
  | [] => []
  | [x] => reprChars x
  | x :: y :: xs => reprChars x ++ ',' :: ' ' :: reprItems (y :: xs)

/-- `", ".join` of `key: value` reprs. -/
def reprEntries : List (PyKey × PyVal) → List Char
  | [] => []
  | [(k, v)] => reprKeyChars k ++ ':' :: ' ' :: reprChars v
  | (k, v) :: e :: kvs =>
    reprKeyChars k ++ ':' :: ' ' :: (reprChars v ++ ',' :: ' ' :: reprEntries (e :: kvs))

/-- `repr()` of a dict key. -/
def reprKeyChars : PyKey → List Char
  | .str s => quoteChar :: (s.data ++ [quoteChar])
  | .int i => intChars i
  | .bool true => ['T', 'r', 'u', 'e']
  | .bool false => ['F', 'a', 'l', 's', 'e']
  | .null => ['N', 'o', 'n', 'e']
end

/-- Python `str(v)`: the string itself for a string, `repr` otherwise. -/
def pyStr : PyVal → String
  | .str s => s
  | v => String.mk (reprChars v)

/-- The translation tail of `_meshcore_receiver_loop` for one successfully
decoded message: pick `destination_meshtastic_id`, derive the text payload
(a string payload as is; else a non-`None` `payload_json` serialized with
`json.dumps`, which on failure leaves the text `None`; else `str(payload)`
for a non-`None` payload), and when the destination is truthy and a text
exists, build the queue message with `destination`, `text`, `channel_index`
(default 0) and `want_ack` (default `False`).  Returns the message the loop
attempts to enqueue, or `none` when the decoded dict lacks the required
fields (logged and dropped). -/
def translateMeshcore (m : List (PyKey × PyVal)) : Option (List (PyKey × PyVal)) :=
  let dest := pyGet m "destination_meshtastic_id"
  let payload := pyGet m "payload"
  let payloadJson := pyGet m "payload_json"
  let channelIndex := pyGetD m "channel_index" (.int 0)
  let wantAck := pyGetD m "want_ack" (.bool false)
  let textPayload : Option String :=
    match payload with
    | .str s => some s
    | _ =>
      if !pyIsNull payloadJson then
        if jsonOk payloadJson then some (String.mk (dumpsV payloadJson)) else none
      else if !pyIsNull payload then some (pyStr payload) else none
  match textPayload with
  | some t =>
    if pyTruthy dest then
      some [(.str "destination", dest), (.str "text", .str t),
            (.str "channel_index", channelIndex), (.str "want_ack", wantAck)]
    else none
  | none => none

/-- The format check of `_meshtastic_sender_loop` on a dequeued item:
`item.get('destination')` must be truthy and `item.get('text')` must be a
`str`, otherwise the item is logged as invalid and discarded. -/
def mtSenderAccepts (item : List (PyKey × PyVal)) : Bool :=
  pyTruthy (pyGet item "destination") &&
  (match pyGet item "text" with | .str _ => true | _ => false)

/-- What one decoded-message iteration of `_meshcore_receiver_loop` does to
the `to_meshtastic_queue` (capacity `cap`).  When the queue is full,
`put_nowait` raises `queue.Full`; the handler clause `except Queue.Full:`
then evaluates the attribute `Full` on the **class** `queue.Queue`, which
does not exist, so an `AttributeError` is raised during exception handling
and the original exception escapes to the loop's generic
`except Exception` handler — which logs at error level, closes the serial
port and sleeps.  The intended warn-and-drop branch (`droppedWithWarning`
below, matching the handler's own log message) is unreachable. -/
inductive McRxOutcome where
  | queued
  | droppedWithWarning
  | errorRecovery
  | missingFields
deriving DecidableEq, Repr

/-- One decoded message through the translate-and-enqueue tail of
`_meshcore_receiver_loop`; see `McRxOutcome` for the queue-full behaviour. -/
def meshcoreProcessDecoded (cap : Nat) (q : List (List (PyKey × PyVal)))
    (msg : List (PyKey × PyVal)) : List (List (PyKey × PyVal)) × McRxOutcome :=
  match translateMeshcore msg with
  | some m => if q.length < cap then (q ++ [m], .queued) else (q, .errorRecovery)
  | none => (q, .missingFields)

/-- A received Meshtastic packet, as `_on_meshtastic_receive` reads it:
`packet.get('from')`, `packet['decoded']['portnum']` (any value — the code
checks `isinstance(portnum, str)`), the raw payload bytes, and the decoded
position sub-dict. -/
structure MtPacket where
  fromId : Option Nat
  portnum : PyVal
  payload : Option (List Nat)
  position : List (PyKey × PyVal)

/-- `f"!{sender_id_num:x}" if sender_id_num else "UNKNOWN"`: the hex node
id string the callback compares identities with; a missing or zero (falsy)
`from` field formats as `"UNKNOWN"`. -/
def senderHexOf (p : MtPacket) : String :=
  match p.fromId with
  | some n => if n = 0 then "UNKNOWN" else String.mk ('!' :: natHexChars n)
  | none => "UNKNOWN"

/-- Outcome of one `_on_meshtastic_receive` invocation.  `callbackError` is
the queue-full case: as in `McRxOutcome`, the `except Queue.Full:` clause
raises `AttributeError`, which here is swallowed by the callback's own
trailing `except Exception` (logged at error level with traceback); the
intended `droppedWithWarning` branch is unreachable. -/
inductive CbOutcome where
  | emptyPacket
  | loopbackDropped
  | unhandledPort
  | enqueued
  | droppedWithWarning
  | callbackError
deriving DecidableEq, Repr

/-- `_on_meshtastic_receive`: ignore a falsy packet; format the sender hex
id; silently discard loopback (sender equals a truthy configured
`bridge_node_id` or a truthy fetched `my_node_id`); translate only
`TEXT_MESSAGE_APP` (with truthy payload, decoded UTF-8 `errors='replace'`)
and `POSITION_APP` packets; and enqueue the translated message on
`to_meshcore_queue` (capacity `cap`) with `put_nowait`.  `now` stands for
`time.time()`. -/
def onMtReceive (bridgeNodeId : String) (myNodeId : Option String) (cap : Nat)
    (q : List (List (PyKey × PyVal))) (packet : Option MtPacket) (now : PyVal) :
    List (List (PyKey × PyVal)) × CbOutcome :=
  match packet with
  | none => (q, .emptyPacket)
  | some p =>
    let senderHex := senderHexOf p
    let lb1 : Bool := decide (bridgeNodeId ≠ "" ∧ senderHex = bridgeNodeId)
    let lb2 : Bool :=
      match myNodeId with
      | some s => decide (s ≠ "" ∧ senderHex = s)
      | none => false
    if lb1 || lb2 then (q, .loopbackDropped)
    else
      let translated : Option PyVal :=
        match p.portnum with
        | .str "TEXT_MESSAGE_APP" =>
          match p.payload with
          | some (b :: bs) => some (.str (String.mk (utf8DecodeWith [Char.ofNat 0xfffd] (b :: bs))))
          | _ => none
        | .str "POSITION_APP" =>
          some (.dict [(.str "latitude", pyGet p.position "latitude"),
                       (.str "longitude", pyGet p.position "longitude"),
                       (.str "altitude", pyGet p.position "altitude"),
                       (.str "timestamp_gps", pyGet p.position "time")])
        | _ => none
      match translated with
      | none => (q, .unhandledPort)
      | some tp =>
        let msg : List (PyKey × PyVal) :=
          [(.str "type", .str "meshtastic_message"),
           (.str "sender_meshtastic_id", .str senderHex),
           (.str "portnum", p.portnum),
           (.str "payload", tp),
           (.str "timestamp_rx", now)]
        if q.length < cap then (q ++ [msg], .enqueued) else (q, .callbackError)

/-- What `Bridge.run` did by the time it returned or entered its polling
loop (thread-start exceptions, which only lead to one more stop-and-return
path, are not modelled). -/
structure RunTrace where
  meshtasticConnected : Bool
  meshcoreConnectWarning : Bool
  meshtasticSenderStarted : Bool
  meshcoreThreadsStarted : Bool
  enteredMainLoop : Bool
  stopCalled : Bool
deriving DecidableEq, Repr

/-- `Bridge.run` as a function of the two initial `connect()` results: a
failed Meshtastic connect is fatal (log critical, `stop()`, return before
any thread starts); a failed Meshcore connect only logs a warning, after
which both handlers' threads start and the main loop is entered (`stop()`
eventually runs in the `finally` block). -/
def bridgeRun (mtConnectOk mcConnectOk : Bool) : RunTrace :=
  if !mtConnectOk then
    { meshtasticConnected := false, meshcoreConnectWarning := false,
      meshtasticSenderStarted := false, meshcoreThreadsStarted := false,
      enteredMainLoop := false, stopCalled := true }
  else
    { meshtasticConnected := true, meshcoreConnectWarning := !mcConnectOk,
      meshtasticSenderStarted := true, meshcoreThreadsStarted := true,
      enteredMainLoop := true, stopCalled := true }

/-- A remainder that cannot extend a JSON number: empty, or starting with a
character that is neither a digit nor `.`, `e`, `E`.  Every separator the
serializer emits after a value (`,`, `]`, `}`, end of input) qualifies. -/
def jsonDelim : List Char → Bool
  | [] => true
  | c :: _ => !(c.isDigit || c = '.' || c = 'e' || c = 'E')

/-! ## Theorems -/

/-- `Char.ofNat` round-trips `toNat` for any valid scalar value. -/
theorem toNat_charOfNat (n : Nat) (h : n.isValidChar) : (Char.ofNat n).toNat = n := by
  simp only [Char.ofNat, dif_pos h, Char.ofNatAux, Char.toNat]
  rfl

/-- C1: the claim says a full inbound queue makes the receive path drop the
newest message with a warning and continue normally; in the code the clause
`except Queue.Full:` names a non-existent attribute of the class
`queue.Queue`, so when `put_nowait` raises `queue.Full` an `AttributeError`
is raised while selecting the handler and the generic `except Exception`
path runs instead: the Meshcore receiver loop logs an error, closes the
serial port and sleeps (`errorRecovery`), and the Meshtastic receive
callback ends in its own catch-all error branch (`callbackError`).  Both
evaluations below exhibit this at a concrete full queue (capacity 1, one
queued item) with a message that translates successfully. -/
theorem queue_full_escalates_to_generic_error :
    meshcoreProcessDecoded 1 [[]]
      [(.str "destination_meshtastic_id", .str "!abc"), (.str "payload", .str "hi")]
      = ([[]], McRxOutcome.errorRecovery) ∧
    onMtReceive "!bridge" none 1 [[]]
      (some { fromId := some 1, portnum := .str "TEXT_MESSAGE_APP",
              payload := some [104], position := [] }) .null
      = ([[]], CbOutcome.callbackError) :=
  ⟨rfl, rfl⟩

/-- C2 counterexample: with an unregistered protocol name, config validation
only warns and proceeds, and `MeshcoreHandler.__init__` comes up with the
dummy codec whose `encode` and `decode` fail on every input — there is no
fail-fast. -/
theorem unrecognized_protocol_yields_dummy_codec :
    configProtocolStep "bogus_protocol" = ("bogus_protocol", true) ∧
    meshcoreInitCodec "bogus_protocol" = Codec.dummy ∧
    codecEncode (meshcoreInitCodec "bogus_protocol") (.dict [(.str "a", .int 1)]) = none ∧
    codecDecode (meshcoreInitCodec "bogus_protocol") [123, 125, 10] = none :=
  ⟨rfl, rfl, rfl, rfl⟩

/-- C2 (amended): for every configuration string whose lowercasing is not a
registered protocol name, startup does **not** fail fast: `load_config`
proceeds with the lowercased name (after a warning), and the constructed
`MeshcoreHandler` holds the dummy codec, which returns failure for every
encode and decode at runtime. -/
theorem unrecognized_protocol_never_fails_fast (name : String)
    (h1 : pyLower name ≠ "json_newline") (h2 : pyLower name ≠ "companion_frame") :
    meshcoreInitCodec name = Codec.dummy ∧
    (∀ d, codecEncode (meshcoreInitCodec name) d = none) ∧
    (∀ l, codecDecode (meshcoreInitCodec name) l = none) ∧
    configProtocolStep name = (pyLower name, true) := by
  have d1 : decide ("json_newline" = pyLower name) = false :=
    decide_eq_false (fun h => h1 h.symm)
  have d2 : decide ("companion_frame" = pyLower name) = false :=
    decide_eq_false (fun h => h2 h.symm)
  have hfind : protocolRegistry.find? (fun e => e.1 = pyLower name) = none := by
    simp only [protocolRegistry, List.find?, d1, d2]
  have hinit : meshcoreInitCodec name = Codec.dummy := by
    simp [meshcoreInitCodec, getProtocolHandler, hfind]
  refine ⟨hinit, ?_, ?_, ?_⟩
  · intro d; rw [hinit]; rfl
  · intro l; rw [hinit]; rfl
  · simp only [configProtocolStep, validMeshcoreProtocols, List.contains]
    simp [h1]

/-- Witness for C2's amended theorem at the concrete name
`"bogus_protocol"`. -/
theorem unrecognized_protocol_never_fails_fast_witness :
    meshcoreInitCodec "bogus_protocol" = Codec.dummy ∧
    (∀ d, codecEncode (meshcoreInitCodec "bogus_protocol") d = none) ∧
    (∀ l, codecDecode (meshcoreInitCodec "bogus_protocol") l = none) ∧
    configProtocolStep "bogus_protocol" = (pyLower "bogus_protocol", true) :=
  unrecognized_protocol_never_fails_fast "bogus_protocol" (by decide) (by decide)

/-- C3 counterexample: the dict `{1: "a"}` has JSON-representable values
and encodes successfully, but the round trip returns `{"1": "a"}` —
`json.dumps` coerces the int key to the string `"1"` — which is a different
dictionary.  (The byte list is `{"1": "a"}` plus the trailing newline.) -/
theorem json_roundtrip_int_key_counterexample :
    jsonNewlineEncode (.dict [(.int 1, .str "a")])
      = some [123, 34, 49, 34, 58, 32, 34, 97, 34, 125, 10] ∧
    jsonNewlineDecode [123, 34, 49, 34, 58, 32, 34, 97, 34, 125, 10]
      = some (.dict [(.str "1", .str "a")]) ∧
    PyVal.dict [(.str "1", .str "a")] ≠ PyVal.dict [(.int 1, .str "a")] :=
  ⟨rfl, rfl, by simp⟩

/-- C5: a companion frame with start byte `0x3E`, little-endian length 18,
message-type code 7, any 6 key-prefix bytes, path-length byte `0xFF`,
text-type byte 0, little-endian timestamp `0x12345678` and UTF-8 text
`"hello"` decodes to the outbound code-7 map with the key prefix rendered
as its lowercase hex string, `path_len = 255`,
`sender_timestamp = 0x12345678` and `text = "hello"` (the decoder also
records the text-type byte under `txt_type`). -/
theorem companion_code7_frame_decodes (a b c d e f : Nat)
    (_ha : a < 256) (_hb : b < 256) (_hc : c < 256)
    (_hd : d < 256) (_he : e < 256) (_hf : f < 256) :
    companionDecode ([0x3e, 18, 0, 7] ++ [a, b, c, d, e, f] ++
        [0xff, 0, 0x78, 0x56, 0x34, 0x12, 104, 101, 108, 108, 111]) =
    some [(.str "direction", .str "outbound"),
          (.str "code", .int 7),
          (.str "pubkey_prefix", .str (String.mk (bytesHexChars [a, b, c, d, e, f]))),
          (.str "path_len", .int 255),
          (.str "txt_type", .int 0),
          (.str "sender_timestamp", .int 0x12345678),
          (.str "text", .str "hello")] := by
  simp only [companionDecode, List.cons_append, List.nil_append]
  norm_num [List.getD, leWord, leQuad, List.drop, List.take, List.length]
  rfl

/-- Witness for C5 at the key-prefix bytes `1, 2, 3, 4, 5, 6`. -/
theorem companion_code7_frame_decodes_witness :
    companionDecode ([0x3e, 18, 0, 7] ++ [1, 2, 3, 4, 5, 6] ++
        [0xff, 0, 0x78, 0x56, 0x34, 0x12, 104, 101, 108, 108, 111]) =
    some [(.str "direction", .str "outbound"),
          (.str "code", .int 7),
          (.str "pubkey_prefix", .str (String.mk (bytesHexChars [1, 2, 3, 4, 5, 6]))),
          (.str "path_len", .int 255),
          (.str "txt_type", .int 0),
          (.str "sender_timestamp", .int 0x12345678),
          (.str "text", .str "hello")] :=
  companion_code7_frame_decodes 1 2 3 4 5 6
    (by decide) (by decide) (by decide) (by decide) (by decide) (by decide)

/-- C6: for every byte string whose declared 2-byte little-endian length
exceeds the payload bytes present after the 3-byte header — including any
input shorter than 4 bytes — the companion decoder returns failure and
never a partially decoded map. -/
theorem companion_incomplete_frame_rejected (frame : List Nat)
    (_hbytes : ∀ b ∈ frame, b < 256)
    (h : frame.length < 4 ∨
         frame.length - 3 < leWord (frame.getD 1 0) (frame.getD 2 0)) :
    companionDecode frame = none := by
  unfold companionDecode
  by_cases h4 : frame.length < 4
  · simp [h4]
  · simp only [if_neg h4]
    rcases h with h | h
    · exact absurd h h4
    · by_cases hs : frame.getD 0 0 = 0x3e ∨ frame.getD 0 0 = 0x3c
      · have hlen : (List.take (leWord (frame.getD 1 0) (frame.getD 2 0))
            (List.drop 3 frame)).length < leWord (frame.getD 1 0) (frame.getD 2 0) := by
          simp only [List.length_take, List.length_drop]
          omega
        rw [if_pos hs, if_pos hlen]
      · rw [if_neg hs]

/-- Witness for C6: a valid-start frame that declares 5 payload bytes but
carries only 1. -/
theorem companion_incomplete_frame_rejected_witness :
    companionDecode [0x3e, 5, 0, 1] = none :=
  companion_incomplete_frame_rejected [0x3e, 5, 0, 1]
    (by decide) (Or.inr (by decide))

/-- C7: `Bridge.run` treats the two initial connections asymmetrically.
A failed Meshtastic `connect()` is fatal: `stop()` runs and `run` returns
with no handler thread started and the main loop never entered, whatever
the Meshcore side would have done.  A failed Meshcore `connect()` is
non-fatal: after a warning, the Meshtastic sender and both Meshcore threads
are started and the main loop is entered. -/
theorem bridge_startup_asymmetry (mc : Bool) :
    bridgeRun false mc =
      { meshtasticConnected := false, meshcoreConnectWarning := false,
        meshtasticSenderStarted := false, meshcoreThreadsStarted := false,
        enteredMainLoop := false, stopCalled := true } ∧
    bridgeRun true false =
      { meshtasticConnected := true, meshcoreConnectWarning := true,
        meshtasticSenderStarted := true, meshcoreThreadsStarted := true,
        enteredMainLoop := true, stopCalled := true } :=
  ⟨rfl, rfl⟩

/-- C8 counterexample: configuring `companion_frame` for the raw-serial
side is **not** rejected at configuration time — the name is missing from
`VALID_MESHCORE_PROTOCOLS`, so `load_config` only logs the generic
unrecognized-protocol warning and proceeds, `get_protocol_handler` then
instantiates the codec, and a send attempt fails at runtime, each `encode`
call returning no output. -/
theorem companion_encode_not_rejected_at_config :
    validMeshcoreProtocols.contains "companion_frame" = false ∧
    configProtocolStep "companion_frame" = ("companion_frame", true) ∧
    getProtocolHandler "companion_frame" = .ok Codec.companionFrame ∧
    codecEncode Codec.companionFrame
      (.dict [(.str "destination", .str "!abc"), (.str "text", .str "hi")]) = none :=
  ⟨rfl, rfl, rfl, rfl⟩

/-- C8 (amended): the companion codec's write direction is refused only at
runtime, per call: configuration accepts `companion_frame` (with a generic
unrecognized-name warning, since it is absent from
`VALID_MESHCORE_PROTOCOLS`), the factory returns the codec, and every
`encode` call logs an error and produces no output. -/
theorem companion_encode_fails_per_call_at_runtime :
    configProtocolStep "companion_frame" = ("companion_frame", true) ∧
    getProtocolHandler "companion_frame" = .ok Codec.companionFrame ∧
    ∀ d, codecEncode Codec.companionFrame d = none :=
  ⟨rfl, rfl, fun _ => rfl⟩

/-- The callback's sender identity string is never empty: it is either
`"UNKNOWN"` or `"!"` followed by hex digits. -/
theorem senderHex_ne_empty (p : MtPacket) : senderHexOf p ≠ "" := by
  unfold senderHexOf
  cases hp : p.fromId with
  | none => decide
  | some n =>
    by_cases hn : n = 0
    · simp [hn]
    · simp only [if_neg hn]
      intro h
      have := congrArg String.data h
      simp at this

/-- C4: for every configured bridge id, every fetched-node-id state of the
handler, every queue state and every packet whose sender identity (as the
code formats it) equals the configured bridge node id or the fetched node
id, the receive callback discards the packet as loopback and enqueues
nothing on the queue toward the Meshcore network. -/
theorem loopback_packets_never_enqueued (bridgeNodeId : String)
    (myNodeId : Option String) (cap : Nat) (q : List (List (PyKey × PyVal)))
    (p : MtPacket) (now : PyVal)
    (h : senderHexOf p = bridgeNodeId ∨ myNodeId = some (senderHexOf p)) :
    onMtReceive bridgeNodeId myNodeId cap q (some p) now = (q, .loopbackDropped) := by
  have hne : senderHexOf p ≠ "" := senderHex_ne_empty p
  unfold onMtReceive
  rcases h with h | h
  · subst h
    simp [hne]
  · subst h
    simp [hne]

/-- Witness for C4: a text packet from node `0xa` with the bridge id
configured as `"!a"` is dropped as loopback. -/
theorem loopback_packets_never_enqueued_witness :
    onMtReceive "!a" none 5 []
      (some { fromId := some 10, portnum := .str "TEXT_MESSAGE_APP",
              payload := some [104], position := [] }) .null
      = ([], CbOutcome.loopbackDropped) :=
  loopback_packets_never_enqueued "!a" none 5 [] _ .null (Or.inl rfl)

/-- C9: every message the Meshcore receiver's translation step produces for
the to-Meshtastic queue carries a truthy `destination`, a string `text`,
and the `channel_index` and `want_ack` keys; consequently the Meshtastic
sender loop's format check accepts every such message. -/
theorem meshcore_translation_accepted_by_sender (m out : List (PyKey × PyVal))
    (h : translateMeshcore m = some out) :
    pyTruthy (pyGet out "destination") = true ∧
    (∃ s, pyGet out "text" = PyVal.str s) ∧
    pyHasKey out "channel_index" = true ∧
    pyHasKey out "want_ack" = true ∧
    mtSenderAccepts out = true := by
  unfold translateMeshcore at h
  dsimp only [] at h
  split at h
  · split at h
    · simp only [Option.some.injEq] at h
      subst h
      refine ⟨?_, ?_, ?_, ?_, ?_⟩ <;>
        simp_all [pyGet, pyHasKey, mtSenderAccepts, List.find?]
    · exact absurd h (by simp)
  · exact absurd h (by simp)

/-- Witness for C9 at a concrete decoded message with a string payload. -/
theorem meshcore_translation_accepted_by_sender_witness :
    pyTruthy (pyGet [(.str "destination", .str "!abc"), (.str "text", .str "hi"),
        (.str "channel_index", .int 0), (.str "want_ack", .bool false)] "destination") = true ∧
    (∃ s, pyGet [(.str "destination", .str "!abc"), (.str "text", .str "hi"),
        (.str "channel_index", .int 0), (.str "want_ack", .bool false)] "text" = PyVal.str s) ∧
    pyHasKey [(.str "destination", .str "!abc"), (.str "text", .str "hi"),
        (.str "channel_index", .int 0), (.str "want_ack", .bool false)] "channel_index" = true ∧
    pyHasKey [(.str "destination", .str "!abc"), (.str "text", .str "hi"),
        (.str "channel_index", .int 0), (.str "want_ack", .bool false)] "want_ack" = true ∧
    mtSenderAccepts [(.str "destination", .str "!abc"), (.str "text", .str "hi"),
        (.str "channel_index", .int 0), (.str "want_ack", .bool false)] = true :=
  meshcore_translation_accepted_by_sender
    [(.str "destination_meshtastic_id", .str "!abc"), (.str "payload", .str "hi")] _ rfl

/-- ASCII lowercasing is idempotent on characters. -/
theorem lowerChar_idem (c : Char) : lowerChar (lowerChar c) = lowerChar c := by
  by_cases h : 65 ≤ c.toNat ∧ c.toNat ≤ 90
  · have h1 : lowerChar c = Char.ofNat (c.toNat + 32) := by
      unfold lowerChar; rw [if_pos h]
    have ht : (Char.ofNat (c.toNat + 32)).toNat = c.toNat + 32 :=
      toNat_charOfNat _ (Or.inl (by omega))
    rw [h1]
    unfold lowerChar
    rw [if_neg (fun hcon => by rw [ht] at hcon; omega)]
  · have h1 : lowerChar c = c := by unfold lowerChar; rw [if_neg h]
    rw [h1, h1]

/-- ASCII lowercasing is idempotent on strings. -/
theorem pyLower_idem (s : String) : pyLower (pyLower s) = pyLower s := by
  show String.mk ((s.data.map lowerChar).map lowerChar) = String.mk (s.data.map lowerChar)
  rw [List.map_map]
  exact congrArg String.mk (List.map_congr_left (fun c _ => lowerChar_idem c))

/-- C10: `get_protocol_handler` is exactly lowercased-name lookup: it
returns the handler registered under `json_newline` or `companion_frame`
when the lowercased input matches, and raises `ValueError` if and only if
the lowercased input is neither; consequently `get_protocol_handler(s)` and
`get_protocol_handler(s.lower())` return the same handler class or both
raise. -/
theorem get_protocol_handler_case_insensitive (s : String) :
    getProtocolHandler s =
      (if pyLower s = "json_newline" then .ok Codec.jsonNewline
       else if pyLower s = "companion_frame" then .ok Codec.companionFrame
       else .error ("Unsupported Meshcore protocol: " ++ s)) ∧
    (getProtocolHandler s).toOption = (getProtocolHandler (pyLower s)).toOption := by
  have main : ∀ t : String, getProtocolHandler t =
      (if pyLower t = "json_newline" then .ok Codec.jsonNewline
       else if pyLower t = "companion_frame" then .ok Codec.companionFrame
       else .error ("Unsupported Meshcore protocol: " ++ t)) := by
    intro t
    by_cases e1 : pyLower t = "json_newline"
    · simp [getProtocolHandler, protocolRegistry, List.find?, e1]
    · by_cases e2 : pyLower t = "companion_frame"
      · simp [getProtocolHandler, protocolRegistry, List.find?, e1, e2]
      · have d1 : decide ("json_newline" = pyLower t) = false :=
          decide_eq_false (fun h => e1 h.symm)
        have d2 : decide ("companion_frame" = pyLower t) = false :=
          decide_eq_false (fun h => e2 h.symm)
        simp [getProtocolHandler, protocolRegistry, List.find?, d1, d2, e1, e2]
  refine ⟨main s, ?_⟩
  rw [main s, main (pyLower s), pyLower_idem]
  by_cases e1 : pyLower s = "json_newline"
  · simp [e1]
  · by_cases e2 : pyLower s = "companion_frame"
    · simp [e1, e2]
    · simp [e1, e2, Except.toOption]

theorem decDigit_toNat (k : Nat) (h : k < 10) : (decDigit k).toNat = 48 + k :=
  toNat_charOfNat (48 + k) (Or.inl (by omega))

theorem decDigit_isDigit (k : Nat) (h : k < 10) : (decDigit k).isDigit = true := by
  interval_cases k <;> decide

theorem digitsCore_mono (base : Nat) (dig : Nat → Char) (hb : 2 ≤ base) :
    ∀ n f g, n < f → n < g →
      digitsCore base dig f n = digitsCore base dig g n := by
  intro n
  induction n using Nat.strong_induction_on with
  | _ n ih =>
    intro f g hf hg
    match f, g with
    | f + 1, g + 1 =>
      simp only [digitsCore]
      by_cases hn : n < base
      · simp [hn]
      · have hd : n / base < n := Nat.div_lt_self (by omega) (by omega)
        rw [if_neg hn, if_neg hn,
          ih (n / base) hd f g (by omega) (by omega)]

theorem natChars_unfold (n : Nat) :
    natChars n = if n < 10 then [decDigit n] else natChars (n / 10) ++ [decDigit (n % 10)] := by
  show digitsCore 10 decDigit (n + 1) n = _
  simp only [digitsCore]
  by_cases hn : n < 10
  · simp [hn]
  · rw [if_neg hn, if_neg hn,
      digitsCore_mono 10 decDigit (by omega) (n / 10) n (n / 10 + 1)
        (by omega) (Nat.lt_succ_self _)]
    rfl

theorem natChars_ne_nil (n : Nat) : natChars n ≠ [] := by
  rw [natChars_unfold]
  by_cases hn : n < 10 <;> simp [hn]

theorem natChars_all_digits (n : Nat) : ∀ c ∈ natChars n, c.isDigit = true := by
  induction n using Nat.strong_induction_on with
  | _ n ih =>
    rw [natChars_unfold]
    by_cases hn : n < 10
    · simp only [if_pos hn, List.mem_singleton]
      rintro c rfl
      exact decDigit_isDigit n hn
    · simp only [if_neg hn, List.mem_append, List.mem_singleton]
      rintro c (hc | rfl)
      · exact ih (n / 10) (Nat.div_lt_self (by omega) (by omega)) c hc
      · exact decDigit_isDigit _ (Nat.mod_lt _ (by omega))

theorem natChars_head (n : Nat) : ∃ c t, natChars n = c :: t ∧ c.isDigit = true := by
  match h : natChars n with
  | [] => exact absurd h (natChars_ne_nil n)
  | c :: t =>
    exact ⟨c, t, rfl, natChars_all_digits n c (h ▸ List.mem_cons_self c t)⟩

theorem digitsNat_append_digit (l : List Char) (c : Char) :
    digitsNat (l ++ [c]) = 10 * digitsNat l + (c.toNat - 48) := by
  simp [digitsNat, List.foldl_append]
  omega

theorem digitsNat_natChars (n : Nat) : digitsNat (natChars n) = n := by
  induction n using Nat.strong_induction_on with
  | _ n ih =>
    rw [natChars_unfold]
    by_cases hn : n < 10
    · simp [hn, digitsNat, decDigit_toNat n hn]
    · rw [if_neg hn, digitsNat_append_digit,
        ih (n / 10) (Nat.div_lt_self (by omega) (by omega)),
        decDigit_toNat _ (Nat.mod_lt _ (by omega))]
      omega

theorem grabDigits_cons_stop {c : Char} {t : List Char} (h : c.isDigit = false) :
    grabDigits (c :: t) = ([], c :: t) := by
  simp [grabDigits, h]

theorem jsonDelim_head {c : Char} {t : List Char} (h : jsonDelim (c :: t) = true) :
    c.isDigit = false ∧ c ≠ '.' ∧ c ≠ 'e' ∧ c ≠ 'E' := by
  simp only [jsonDelim, Bool.not_eq_true', Bool.or_eq_false_iff,
    decide_eq_false_iff_not] at h
  exact ⟨h.1.1.1, h.1.1.2, h.1.2, h.2⟩

theorem grabDigits_delim_stop {cs : List Char} (h : jsonDelim cs = true) :
    grabDigits cs = ([], cs) := by
  match cs with
  | [] => rfl
  | c :: t => exact grabDigits_cons_stop (jsonDelim_head h).1

theorem grabDigits_run (ds : List Char) (hds : ∀ c ∈ ds, c.isDigit = true)
    (rest : List Char) (hrest : grabDigits rest = ([], rest)) :
    grabDigits (ds ++ rest) = (ds, rest) := by
  induction ds with
  | nil => simpa using hrest
  | cons c t ih =>
    have hc : c.isDigit = true := hds c (List.mem_cons_self c t)
    have ht := ih (fun x hx => hds x (List.mem_cons_of_mem c hx))
    simp [grabDigits, hc, ht]

theorem digit_ne {c x : Char} (h : c.isDigit = true) (hx : x.isDigit = false) : c ≠ x :=
  fun he => by rw [he, hx] at h; exact Bool.false_ne_true h

theorem keepFlag_of_delim (rest : List Char) :
    jsonDelim rest = true →
    (match rest with
      | c :: _ => !(c = '.' || c = 'e' || c = 'E')
      | [] => true) = true := by
  match rest with
  | [] => exact fun _ => rfl
  | c :: t =>
    intro hr
    obtain ⟨-, h1, h2, h3⟩ := jsonDelim_head hr
    simp [h1, h2, h3]

theorem pNum_intChars (i : Int) (rest : List Char) (hr : jsonDelim rest = true) :
    pNum (intChars i ++ rest) = some (i, rest) := by
  have hstop := grabDigits_delim_stop hr
  have hrun := grabDigits_run (natChars i.natAbs) (natChars_all_digits _) rest hstop
  by_cases hneg : i < 0
  · have harg : intChars i ++ rest = '-' :: (natChars i.natAbs ++ rest) := by
      simp [intChars, hneg]
    rw [harg]
    simp only [pNum, hrun]
    rw [if_neg (by simp [natChars_ne_nil])]
    rw [if_pos (keepFlag_of_delim rest hr)]
    simp only [if_true, digitsNat_natChars, Option.some.injEq, Prod.mk.injEq]
    exact ⟨by omega, trivial⟩
  · obtain ⟨c0, t0, h0, hc0⟩ := natChars_head i.natAbs
    have hm : c0 ≠ '-' := digit_ne hc0 (by decide)
    have harg : intChars i ++ rest = c0 :: (t0 ++ rest) := by
      simp [intChars, hneg, h0]
    rw [harg]
    simp only [pNum]
    have hrun' : grabDigits (c0 :: (t0 ++ rest)) = (c0 :: t0, rest) := by
      have := hrun
      rw [h0, List.cons_append] at this
      exact this
    rw [show (match c0 :: (t0 ++ rest) with
        | '-' :: r => (true, r)
        | _ => (false, c0 :: (t0 ++ rest))) = (false, c0 :: (t0 ++ rest)) from by
      simp [hm]]
    simp only [hrun']
    rw [if_neg (by simp)]
    rw [if_pos (keepFlag_of_delim rest hr)]
    have hdv : digitsNat (c0 :: t0) = i.natAbs := by
      have := digitsNat_natChars i.natAbs
      rwa [h0] at this
    simp only [Bool.false_eq_true, if_false, hdv, Option.some.injEq, Prod.mk.injEq]
    exact ⟨by omega, trivial⟩

theorem wsSkip_cons_nows {c : Char} {t : List Char} (h : jsonWs c = false) :
    wsSkip (c :: t) = c :: t := by
  simp [wsSkip, h]

theorem wsSkip_space (l : List Char) : wsSkip (' ' :: l) = wsSkip l := by
  simp [wsSkip, jsonWs]

theorem charToNat_valid (c : Char) :
    c.toNat < 0xd800 ∨ (0xdfff < c.toNat ∧ c.toNat < 0x110000) := by
  rcases c.valid with h | ⟨h1, h2⟩
  · exact Or.inl h
  · exact Or.inr ⟨h1, h2⟩

theorem hexVal_hexDigit (k : Nat) (h : k < 16) : hexVal (hexDigit k) = some k := by
  interval_cases k <;> decide

theorem hexQuad_uHex4 (n : Nat) (h : n < 0x10000) :
    hexQuad (hexDigit (n / 4096 % 16)) (hexDigit (n / 256 % 16))
      (hexDigit (n / 16 % 16)) (hexDigit (n % 16)) = some n := by
  rw [hexQuad, hexVal_hexDigit _ (Nat.mod_lt _ (by omega)),
    hexVal_hexDigit _ (Nat.mod_lt _ (by omega)),
    hexVal_hexDigit _ (Nat.mod_lt _ (by omega)),
    hexVal_hexDigit _ (Nat.mod_lt _ (by omega))]
  show some (((n / 4096 % 16 * 16 + n / 256 % 16) * 16 + n / 16 % 16) * 16 + n % 16) = some n
  have harith : ((n / 4096 % 16 * 16 + n / 256 % 16) * 16 + n / 16 % 16) * 16 + n % 16 = n := by
    omega
  rw [harith]


theorem pStrBody_quote (f : Nat) (acc rest : List Char) :
    pStrBody (f + 1) acc ('"' :: rest) = some (acc.reverse, rest) := by
  simp only [pStrBody]
  rw [if_pos trivial]

theorem pStrBody_esc (f : Nat) (acc cs : List Char) :
    pStrBody (f + 1) acc ('\\' :: cs) =
      (match escStep cs with
       | some (ch, cs2) => pStrBody f (ch :: acc) cs2
       | none => none) := by
  simp only [pStrBody]
  rw [if_neg (by decide : ¬('\\' : Char) = '"'), if_pos trivial]

theorem pStrBody_lit (f : Nat) (acc : List Char) (c : Char) (cs : List Char)
    (h1 : c ≠ '"') (h2 : c ≠ '\\') (h3 : ¬c.toNat < 0x20) :
    pStrBody (f + 1) acc (c :: cs) = pStrBody f (c :: acc) cs := by
  simp only [pStrBody]
  rw [if_neg h1, if_neg h2, if_neg h3]

theorem escStep_short (e ch : Char) (cs2 : List Char)
    (he : e ≠ 'u') (hs : shortEsc e = some ch) :
    escStep (e :: cs2) = some (ch, cs2) := by
  rw [escStep, if_neg he, hs]

theorem escStep_u_single (n : Nat) (rest : List Char)
    (hn : n < 0x10000) (hval : n < 0xd800 ∨ 0xdfff < n) :
    escStep ('u' :: hexDigit (n / 4096 % 16) :: hexDigit (n / 256 % 16) ::
      hexDigit (n / 16 % 16) :: hexDigit (n % 16) :: rest) = some (Char.ofNat n, rest) := by
  rw [escStep, if_pos rfl, escU, hexQuad_uHex4 n hn]
  dsimp only []
  rw [if_neg (by omega : ¬(0xd800 ≤ n ∧ n ≤ 0xdbff)),
    if_neg (by omega : ¬(0xdc00 ≤ n ∧ n ≤ 0xdfff))]

theorem escStep_u_pair (n : Nat) (rest : List Char)
    (hn : 0x10000 ≤ n) (hmax : n < 0x110000) :
    escStep ('u' :: hexDigit ((0xd800 + (n - 0x10000) / 0x400) / 4096 % 16) ::
      hexDigit ((0xd800 + (n - 0x10000) / 0x400) / 256 % 16) ::
      hexDigit ((0xd800 + (n - 0x10000) / 0x400) / 16 % 16) ::
      hexDigit ((0xd800 + (n - 0x10000) / 0x400) % 16) ::
      '\\' :: 'u' ::
      hexDigit ((0xdc00 + (n - 0x10000) % 0x400) / 4096 % 16) ::
      hexDigit ((0xdc00 + (n - 0x10000) % 0x400) / 256 % 16) ::
      hexDigit ((0xdc00 + (n - 0x10000) % 0x400) / 16 % 16) ::
      hexDigit ((0xdc00 + (n - 0x10000) % 0x400) % 16) :: rest) =
    some (Char.ofNat n, rest) := by
  rw [escStep, if_pos rfl, escU,
    hexQuad_uHex4 (0xd800 + (n - 0x10000) / 0x400) (by omega)]
  dsimp only []
  rw [if_pos (by omega : 0xd800 ≤ 0xd800 + (n - 0x10000) / 0x400 ∧
        0xd800 + (n - 0x10000) / 0x400 ≤ 0xdbff)]
  rw [escPair]
  rw [if_pos (⟨rfl, rfl⟩ : ('\\' : Char) = '\\' ∧ ('u' : Char) = 'u'),
    hexQuad_uHex4 (0xdc00 + (n - 0x10000) % 0x400) (by omega)]
  dsimp only []
  rw [if_pos (by omega : 0xdc00 ≤ 0xdc00 + (n - 0x10000) % 0x400 ∧
        0xdc00 + (n - 0x10000) % 0x400 ≤ 0xdfff)]
  have hcomb : 0x10000 + (0xd800 + (n - 0x10000) / 0x400 - 0xd800) * 0x400 +
      (0xdc00 + (n - 0x10000) % 0x400 - 0xdc00) = n := by
    omega
  rw [hcomb]

theorem pStrBody_escChar (c : Char) (f : Nat) (acc rest : List Char) :
    pStrBody (f + 1) acc (escChar c ++ rest) = pStrBody f (c :: acc) rest := by
  by_cases h1 : c = '"'
  · subst h1
    rw [show escChar '"' ++ rest = '\\' :: '"' :: rest from rfl, pStrBody_esc,
      escStep_short '"' '"' rest (by decide) rfl]
  by_cases h2 : c = '\\'
  · subst h2
    rw [show escChar '\\' ++ rest = '\\' :: '\\' :: rest from rfl, pStrBody_esc,
      escStep_short '\\' '\\' rest (by decide) rfl]
  by_cases h3 : c = '\n'
  · subst h3
    rw [show escChar '\n' ++ rest = '\\' :: 'n' :: rest from rfl, pStrBody_esc,
      escStep_short 'n' '\n' rest (by decide) rfl]
  by_cases h4 : c = '\r'
  · subst h4
    rw [show escChar '\r' ++ rest = '\\' :: 'r' :: rest from rfl, pStrBody_esc,
      escStep_short 'r' '\r' rest (by decide) rfl]
  by_cases h5 : c = '\t'
  · subst h5
    rw [show escChar '\t' ++ rest = '\\' :: 't' :: rest from rfl, pStrBody_esc,
      escStep_short 't' '\t' rest (by decide) rfl]
  by_cases h6 : c.toNat = 8
  · have hc : c = Char.ofNat 8 := by rw [← Char.ofNat_toNat c, h6]
    subst hc
    rw [show escChar (Char.ofNat 8) ++ rest = '\\' :: 'b' :: rest from rfl, pStrBody_esc,
      escStep_short 'b' (Char.ofNat 8) rest (by decide) rfl]
  by_cases h7 : c.toNat = 12
  · have hc : c = Char.ofNat 12 := by rw [← Char.ofNat_toNat c, h7]
    subst hc
    rw [show escChar (Char.ofNat 12) ++ rest = '\\' :: 'f' :: rest from rfl, pStrBody_esc,
      escStep_short 'f' (Char.ofNat 12) rest (by decide) rfl]
  by_cases h8 : c.toNat < 0x20 ∨ 0x7e < c.toNat
  · have hval := charToNat_valid c
    by_cases h9 : c.toNat < 0x10000
    · have hesc : escChar c ++ rest = '\\' :: 'u' :: hexDigit (c.toNat / 4096 % 16) ::
          hexDigit (c.toNat / 256 % 16) :: hexDigit (c.toNat / 16 % 16) ::
          hexDigit (c.toNat % 16) :: rest := by
        unfold escChar
        rw [if_neg h1, if_neg h2, if_neg h3, if_neg h4, if_neg h5,
          if_neg h6, if_neg h7, if_pos h8, if_pos h9]
        rfl
      rw [hesc, pStrBody_esc, escStep_u_single c.toNat rest h9 (by omega),
        Char.ofNat_toNat]
    · have hesc : escChar c ++ rest = '\\' :: 'u' ::
          hexDigit ((0xd800 + (c.toNat - 0x10000) / 0x400) / 4096 % 16) ::
          hexDigit ((0xd800 + (c.toNat - 0x10000) / 0x400) / 256 % 16) ::
          hexDigit ((0xd800 + (c.toNat - 0x10000) / 0x400) / 16 % 16) ::
          hexDigit ((0xd800 + (c.toNat - 0x10000) / 0x400) % 16) ::
          '\\' :: 'u' ::
          hexDigit ((0xdc00 + (c.toNat - 0x10000) % 0x400) / 4096 % 16) ::
          hexDigit ((0xdc00 + (c.toNat - 0x10000) % 0x400) / 256 % 16) ::
          hexDigit ((0xdc00 + (c.toNat - 0x10000) % 0x400) / 16 % 16) ::
          hexDigit ((0xdc00 + (c.toNat - 0x10000) % 0x400) % 16) :: rest := by
        unfold escChar
        rw [if_neg h1, if_neg h2, if_neg h3, if_neg h4, if_neg h5,
          if_neg h6, if_neg h7, if_pos h8, if_neg h9]
        rfl
      rw [hesc, pStrBody_esc, escStep_u_pair c.toNat rest (by omega) (by omega),
        Char.ofNat_toNat]
  · have hesc : escChar c ++ rest = c :: rest := by
      unfold escChar
      rw [if_neg h1, if_neg h2, if_neg h3, if_neg h4, if_neg h5,
        if_neg h6, if_neg h7, if_neg h8]
      rfl
    rw [hesc]
    exact pStrBody_lit f acc c rest h1 h2 (by omega)

theorem escChar_length_pos (c : Char) : 1 ≤ (escChar c).length := by
  unfold escChar
  split_ifs <;> simp [uHex4]

theorem length_le_flatMap_escChar (l : List Char) :
    l.length ≤ (l.flatMap escChar).length := by
  induction l with
  | nil => simp
  | cons c l ih =>
    simp only [List.flatMap_cons, List.length_cons, List.length_append]
    have := escChar_length_pos c
    omega

theorem pStrBody_run (l : List Char) : ∀ (f : Nat) (acc rest : List Char),
    l.length < f →
    pStrBody f acc (l.flatMap escChar ++ '"' :: rest) = some (acc.reverse ++ l, rest) := by
  induction l with
  | nil =>
    intro f acc rest hf
    match f, hf with
    | f + 1, _ =>
      simp only [List.flatMap_nil, List.nil_append, pStrBody_quote, List.append_nil]
  | cons c l ih =>
    intro f acc rest hf
    match f, hf with
    | f + 1, hf =>
      rw [List.flatMap_cons, List.append_assoc, pStrBody_escChar,
        ih f (c :: acc) rest (by simp at hf; omega)]
      simp

theorem pVal_strLit (f : Nat) (s : String) (rest : List Char) :
    pVal (f + 1) (strLit s ++ rest) = some (.str s, rest) := by
  have harg : strLit s ++ rest = '"' :: (s.data.flatMap escChar ++ '"' :: rest) := by
    simp [strLit]
  rw [harg]
  simp only [pVal]
  rw [pStrBody_run s.data ((s.data.flatMap escChar ++ '"' :: rest).length + 1) [] rest
    (by
      have := length_le_flatMap_escChar s.data
      simp only [List.length_append, List.length_cons]
      omega)]
  rfl

theorem pVal_null (f : Nat) (rest : List Char) :
    pVal (f + 1) ('n' :: 'u' :: 'l' :: 'l' :: rest) = some (.null, rest) := by
  simp only [pVal]

theorem pVal_true (f : Nat) (rest : List Char) :
    pVal (f + 1) ('t' :: 'r' :: 'u' :: 'e' :: rest) = some (.bool true, rest) := by
  simp only [pVal]

theorem pVal_false (f : Nat) (rest : List Char) :
    pVal (f + 1) ('f' :: 'a' :: 'l' :: 's' :: 'e' :: rest) = some (.bool false, rest) := by
  simp only [pVal]

theorem pVal_num_dispatch (f : Nat) (c0 : Char) (t0 : List Char)
    (en : c0 ≠ 'n') (et : c0 ≠ 't')
    (ef : c0 ≠ 'f') (eq' : c0 ≠ '"')
    (ek : c0 ≠ '[') (ec : c0 ≠ '{')
    (eg : c0 = '-' ∨ c0.isDigit = true) :
    pVal (f + 1) (c0 :: t0) =
      (match pNum (c0 :: t0) with
       | some (i, r) => some (.int i, r)
       | none => none) := by
  simp only [pVal]
  split
  · rename_i heq
    exact absurd (List.head_eq_of_cons_eq heq) en
  · rename_i heq
    exact absurd (List.head_eq_of_cons_eq heq) et
  · rename_i heq
    exact absurd (List.head_eq_of_cons_eq heq) ef
  · rename_i heq
    exact absurd (List.head_eq_of_cons_eq heq) eq'
  · rename_i heq
    exact absurd (List.head_eq_of_cons_eq heq) ek
  · rename_i heq
    exact absurd (List.head_eq_of_cons_eq heq) ec
  · rename_i heq
    cases heq
    rw [if_pos eg]
  · rename_i heq
    cases heq

theorem pVal_list_empty (f : Nat) (rest : List Char) :
    pVal (f + 1) ('[' :: ']' :: rest) = some (.list [], rest) := by
  simp only [pVal]
  rw [wsSkip_cons_nows (by decide)]
  split
  · rename_i heq
    cases heq
    rfl
  · rename_i heq
    exact (heq rest rfl).elim

theorem pVal_dict_empty (f : Nat) (rest : List Char) :
    pVal (f + 1) ('{' :: '}' :: rest) = some (.dict [], rest) := by
  simp only [pVal]
  rw [wsSkip_cons_nows (by decide)]
  split
  · rename_i heq
    cases heq
    rfl
  · rename_i heq
    exact (heq rest rfl).elim

theorem pVal_list_branch (f : Nat) (c0 : Char) (t0 : List Char)
    (hws : jsonWs c0 = false) (hbr : c0 ≠ ']') :
    pVal (f + 1) ('[' :: c0 :: t0) =
      (match pItems f (c0 :: t0) with
       | some (xs, r3) => some (.list xs, r3)
       | none => none) := by
  simp only [pVal]
  rw [wsSkip_cons_nows hws]
  split
  · rename_i heq
    exact absurd (List.head_eq_of_cons_eq heq) hbr
  · rfl

theorem pVal_dict_branch (f : Nat) (c0 : Char) (t0 : List Char)
    (hws : jsonWs c0 = false) (hbr : c0 ≠ '}') :
    pVal (f + 1) ('{' :: c0 :: t0) =
      (match pEntries f (c0 :: t0) with
       | some (kvs, r3) => some (.dict kvs, r3)
       | none => none) := by
  simp only [pVal]
  rw [wsSkip_cons_nows hws]
  split
  · rename_i heq
    exact absurd (List.head_eq_of_cons_eq heq) hbr
  · rfl

theorem digit_not_ws {c : Char} (h : c.isDigit = true) : jsonWs c = false := by
  simp only [jsonWs, Bool.or_eq_false_iff, decide_eq_false_iff_not]
  exact ⟨⟨⟨digit_ne h (by decide), digit_ne h (by decide)⟩,
    digit_ne h (by decide)⟩, digit_ne h (by decide)⟩

theorem dumpsHead (v : PyVal) (hv : strKeyed v = true) :
    ∃ c t, dumpsV v = c :: t ∧ jsonWs c = false ∧ c ≠ ']' ∧ c ≠ '}' := by
  cases v with
  | int i =>
    by_cases hneg : i < 0
    · refine ⟨'-', natChars i.natAbs, ?_, by decide, by decide, by decide⟩
      simp [dumpsV, intChars, hneg]
    · obtain ⟨c0, t0, h0, hc0⟩ := natChars_head i.natAbs
      refine ⟨c0, t0, ?_, digit_not_ws hc0,
        digit_ne hc0 (by decide), digit_ne hc0 (by decide)⟩
      simp [dumpsV, intChars, hneg, h0]
  | foreign tag => simp [strKeyed] at hv
  | bool b => cases b <;> exact ⟨_, _, rfl, by decide, by decide, by decide⟩
  | null => exact ⟨_, _, rfl, by decide, by decide, by decide⟩
  | str s => exact ⟨_, _, rfl, by decide, by decide, by decide⟩
  | list xs => exact ⟨_, _, rfl, by decide, by decide, by decide⟩
  | dict kvs => exact ⟨_, _, rfl, by decide, by decide, by decide⟩

theorem jsonDelim_bracket (rest : List Char) : jsonDelim (']' :: rest) = true := by
  simp [jsonDelim]

theorem jsonDelim_brace (rest : List Char) : jsonDelim ('}' :: rest) = true := by
  simp [jsonDelim]

theorem jsonDelim_comma (rest : List Char) : jsonDelim (',' :: rest) = true := by
  simp [jsonDelim]

mutual

theorem rt_val : ∀ (v : PyVal) (f : Nat) (rest : List Char),
    strKeyed v = true → (dumpsV v).length < f → jsonDelim rest = true →
    pVal f (dumpsV v ++ rest) = some (v, rest)
  | .null, f, rest, _, hf, _ => by
    match f, hf with
    | f + 1, _ =>
      rw [show dumpsV .null ++ rest = 'n' :: 'u' :: 'l' :: 'l' :: rest from rfl]
      exact pVal_null f rest
  | .bool true, f, rest, _, hf, _ => by
    match f, hf with
    | f + 1, _ =>
      rw [show dumpsV (.bool true) ++ rest = 't' :: 'r' :: 'u' :: 'e' :: rest from rfl]
      exact pVal_true f rest
  | .bool false, f, rest, _, hf, _ => by
    match f, hf with
    | f + 1, _ =>
      rw [show dumpsV (.bool false) ++ rest = 'f' :: 'a' :: 'l' :: 's' :: 'e' :: rest from rfl]
      exact pVal_false f rest
  | .str s, f, rest, _, hf, _ => by
    match f, hf with
    | f + 1, _ =>
      rw [show dumpsV (.str s) ++ rest = strLit s ++ rest from rfl]
      exact pVal_strLit f s rest
  | .int i, f, rest, _, hf, hr => by
    match f, hf with
    | f + 1, _ =>
      by_cases hneg : i < 0
      · have harg : dumpsV (.int i) ++ rest = '-' :: (natChars i.natAbs ++ rest) := by
          simp [dumpsV, intChars, hneg]
        rw [harg, pVal_num_dispatch f '-' (natChars i.natAbs ++ rest)
          (by decide) (by decide) (by decide) (by decide) (by decide) (by decide)
          (Or.inl rfl)]
        have hback : '-' :: (natChars i.natAbs ++ rest) = intChars i ++ rest := by
          simp [intChars, hneg]
        rw [hback, pNum_intChars i rest hr]
      · obtain ⟨c0, t0, h0, hc0⟩ := natChars_head i.natAbs
        have harg : dumpsV (.int i) ++ rest = c0 :: (t0 ++ rest) := by
          simp [dumpsV, intChars, hneg, h0]
        rw [harg, pVal_num_dispatch f c0 (t0 ++ rest)
          (digit_ne hc0 (by decide)) (digit_ne hc0 (by decide))
          (digit_ne hc0 (by decide)) (digit_ne hc0 (by decide))
          (digit_ne hc0 (by decide)) (digit_ne hc0 (by decide))
          (Or.inr hc0)]
        have hback : c0 :: (t0 ++ rest) = intChars i ++ rest := by
          simp [intChars, hneg, h0]
        rw [hback, pNum_intChars i rest hr]
  | .list [], f, rest, _, hf, _ => by
    match f, hf with
    | f + 1, _ =>
      rw [show dumpsV (.list []) ++ rest = '[' :: ']' :: rest from rfl]
      exact pVal_list_empty f rest
  | .list (x :: xs), f, rest, hv, hf, _ => by
    match f, hf with
    | f + 1, hf =>
      have hv' : strKeyedItems (x :: xs) = true := hv
      have hx : strKeyed x = true := by
        simp only [strKeyedItems, Bool.and_eq_true] at hv'
        exact hv'.1
      obtain ⟨c0, t0, h0, hws, hbr, _⟩ := dumpsHead x hx
      have hitems : dumpsItems (x :: xs) ++ ']' :: rest
          = c0 :: (t0 ++ (dumpsItemsTail xs ++ ']' :: rest)) := by
        simp [dumpsItems, h0, List.append_assoc]
      have harg : dumpsV (.list (x :: xs)) ++ rest
          = '[' :: (c0 :: (t0 ++ (dumpsItemsTail xs ++ ']' :: rest))) := by
        rw [← hitems]
        simp [dumpsV, List.append_assoc]
      have hfuel : (dumpsItems (x :: xs)).length + 1 < f := by
        have h2 : (dumpsV (.list (x :: xs))).length = (dumpsItems (x :: xs)).length + 2 := by
          simp [dumpsV]
        omega
      rw [harg, pVal_list_branch f c0 (t0 ++ (dumpsItemsTail xs ++ ']' :: rest)) hws hbr,
        ← hitems, rt_items x xs f rest hv' hfuel]
  | .dict [], f, rest, _, hf, _ => by
    match f, hf with
    | f + 1, _ =>
      rw [show dumpsV (.dict []) ++ rest = '{' :: '}' :: rest from rfl]
      exact pVal_dict_empty f rest
  | .dict ((k, v) :: kvs), f, rest, hv, hf, _ => by
    match f, hf with
    | f + 1, hf =>
      have hv' : strKeyedEntries ((k, v) :: kvs) = true := hv
      cases k with
      | int n => simp [strKeyedEntries] at hv'
      | bool b => simp [strKeyedEntries] at hv'
      | null => simp [strKeyedEntries] at hv'
      | str ks =>
        have hentries : dumpsEntries ((PyKey.str ks, v) :: kvs) ++ '}' :: rest
            = '"' :: (ks.data.flatMap escChar
              ++ '"' :: (':' :: ' ' :: (dumpsV v ++ (dumpsEntriesTail kvs ++ '}' :: rest)))) := by
          simp [dumpsEntries, keyChars, strLit, List.append_assoc]
        have harg : dumpsV (.dict ((PyKey.str ks, v) :: kvs)) ++ rest
            = '{' :: ('"' :: (ks.data.flatMap escChar
              ++ '"' :: (':' :: ' ' :: (dumpsV v ++ (dumpsEntriesTail kvs ++ '}' :: rest))))) := by
          rw [← hentries]
          simp [dumpsV, List.append_assoc]
        have hfuel : (dumpsEntries ((PyKey.str ks, v) :: kvs)).length + 1 < f := by
          have h2 : (dumpsV (.dict ((PyKey.str ks, v) :: kvs))).length
              = (dumpsEntries ((PyKey.str ks, v) :: kvs)).length + 2 := by
            simp [dumpsV]
          omega
        rw [harg, pVal_dict_branch f '"' _ (by decide) (by decide), ← hentries,
          rt_entries (PyKey.str ks) v kvs f rest hv' hfuel]
  | .foreign t, f, rest, hv, hf, _ => by
    simp [strKeyed] at hv

theorem rt_items : ∀ (x : PyVal) (xs : List PyVal) (f : Nat) (rest : List Char),
    strKeyedItems (x :: xs) = true → (dumpsItems (x :: xs)).length + 1 < f →
    pItems f (dumpsItems (x :: xs) ++ ']' :: rest) = some (x :: xs, rest)
  | x, [], f, rest, hv, hf => by
    match f, hf with
    | f + 1, hf =>
      have hx : strKeyed x = true := by
        simp only [strKeyedItems, Bool.and_eq_true] at hv
        exact hv.1
      have hxl : (dumpsV x).length < f := by
        have h2 : (dumpsItems [x]).length = (dumpsV x).length := by
          simp [dumpsItems, dumpsItemsTail]
        omega
      have harg : dumpsItems [x] ++ ']' :: rest = dumpsV x ++ ']' :: rest := by
        simp [dumpsItems, dumpsItemsTail]
      simp only [pItems]
      rw [harg, rt_val x f (']' :: rest) hx hxl (jsonDelim_bracket rest)]
      dsimp only []
      rw [wsSkip_cons_nows (by decide)]
      split
      · rename_i heq
        exact absurd (List.head_eq_of_cons_eq heq) (by decide)
      · rename_i heq
        cases heq
        rfl
      · rename_i hno1 hno2
        exact (hno2 rest rfl).elim
  | x, y :: ys, f, rest, hv, hf => by
    match f, hf with
    | f + 1, hf =>
      have hx : strKeyed x = true := by
        simp only [strKeyedItems, Bool.and_eq_true] at hv
        exact hv.1
      have hys : strKeyedItems (y :: ys) = true := by
        simp only [strKeyedItems, Bool.and_eq_true] at hv ⊢
        exact ⟨hv.2.1, hv.2.2⟩
      have hlen : (dumpsItems (x :: y :: ys)).length
          = (dumpsV x).length + 2 + (dumpsItems (y :: ys)).length := by
        simp [dumpsItems, dumpsItemsTail]
        omega
      have hxl : (dumpsV x).length < f := by omega
      have hyl : (dumpsItems (y :: ys)).length + 1 < f := by omega
      have harg : dumpsItems (x :: y :: ys) ++ ']' :: rest
          = dumpsV x ++ (',' :: ' ' :: (dumpsItems (y :: ys) ++ ']' :: rest)) := by
        simp [dumpsItems, dumpsItemsTail, List.append_assoc]
      simp only [pItems]
      rw [harg, rt_val x f (',' :: ' ' :: (dumpsItems (y :: ys) ++ ']' :: rest))
        hx hxl (jsonDelim_comma _)]
      dsimp only []
      rw [wsSkip_cons_nows (by decide)]
      split
      · rename_i heq
        cases heq
        rw [wsSkip_space]
        obtain ⟨c0, t0, h0, hws, _, _⟩ := dumpsHead y (by
          simp only [strKeyedItems, Bool.and_eq_true] at hys
          exact hys.1)
        have hitems : dumpsItems (y :: ys) ++ ']' :: rest
            = c0 :: (t0 ++ (dumpsItemsTail ys ++ ']' :: rest)) := by
          simp [dumpsItems, h0, List.append_assoc]
        rw [hitems, wsSkip_cons_nows hws, ← hitems,
          rt_items y ys f rest hys hyl]
      · rename_i heq
        exact absurd (List.head_eq_of_cons_eq heq) (by decide)
      · rename_i hno1 hno2
        exact (hno1 (' ' :: (dumpsItems (y :: ys) ++ ']' :: rest)) rfl).elim

theorem rt_entries : ∀ (k : PyKey) (v : PyVal) (kvs : List (PyKey × PyVal))
    (f : Nat) (rest : List Char),
    strKeyedEntries ((k, v) :: kvs) = true →
    (dumpsEntries ((k, v) :: kvs)).length + 1 < f →
    pEntries f (dumpsEntries ((k, v) :: kvs) ++ '}' :: rest) = some ((k, v) :: kvs, rest)
  | k, v, kvs, f, rest, hv, hf => by
    match f, hf with
    | f + 1, hf =>
      have hvval : strKeyed v = true := by
        simp only [strKeyedEntries, Bool.and_eq_true] at hv
        exact hv.1.2
      have hkvs : strKeyedEntries kvs = true := by
        simp only [strKeyedEntries, Bool.and_eq_true] at hv
        exact hv.2
      cases k with
      | int n => simp [strKeyedEntries] at hv
      | bool b => simp [strKeyedEntries] at hv
      | null => simp [strKeyedEntries] at hv
      | str ks =>
        have harg : dumpsEntries ((PyKey.str ks, v) :: kvs) ++ '}' :: rest
            = '"' :: (ks.data.flatMap escChar
              ++ '"' :: (':' :: ' ' :: (dumpsV v ++ (dumpsEntriesTail kvs ++ '}' :: rest)))) := by
          simp [dumpsEntries, keyChars, strLit, List.append_assoc]
        have hlen : (dumpsEntries ((PyKey.str ks, v) :: kvs)).length
            = (ks.data.flatMap escChar).length + 4 + (dumpsV v).length
              + (dumpsEntriesTail kvs).length := by
          simp [dumpsEntries, keyChars, strLit]
          omega
        have hvl : (dumpsV v).length < f := by omega
        rw [harg]
        simp only [pEntries]
        rw [pStrBody_run ks.data
          ((ks.data.flatMap escChar
            ++ '"' :: (':' :: ' ' :: (dumpsV v ++ (dumpsEntriesTail kvs ++ '}' :: rest)))).length + 1)
          [] (':' :: ' ' :: (dumpsV v ++ (dumpsEntriesTail kvs ++ '}' :: rest)))
          (by
            have := length_le_flatMap_escChar ks.data
            simp only [List.length_append, List.length_cons]
            omega)]
        dsimp only []
        rw [wsSkip_cons_nows (by decide)]
        split
        · rename_i heq
          cases heq
          rw [wsSkip_space]
          obtain ⟨c0, t0, h0, hws, _, _⟩ := dumpsHead v hvval
          have hval2 : dumpsV v ++ (dumpsEntriesTail kvs ++ '}' :: rest)
              = c0 :: (t0 ++ (dumpsEntriesTail kvs ++ '}' :: rest)) := by
            simp [h0]
          have hdelim : jsonDelim (dumpsEntriesTail kvs ++ '}' :: rest) = true := by
            match kvs with
            | [] => exact jsonDelim_brace rest
            | (k2, v2) :: kvs2 => exact jsonDelim_comma _
          rw [hval2, wsSkip_cons_nows hws, ← hval2,
            rt_val v f (dumpsEntriesTail kvs ++ '}' :: rest) hvval hvl hdelim]
          dsimp only []
          match kvs with
          | [] =>
            rw [show dumpsEntriesTail ([] : List (PyKey × PyVal)) ++ '}' :: rest
              = '}' :: rest from rfl]
            rw [wsSkip_cons_nows (by decide)]
            split
            · rename_i heq
              exact absurd (List.head_eq_of_cons_eq heq) (by decide)
            · rename_i heq
              cases heq
              rfl
            · rename_i hno1 hno2
              exact (hno2 rest rfl).elim
          | (k2, v2) :: kvs2 =>
            have htail : dumpsEntriesTail ((k2, v2) :: kvs2) ++ '}' :: rest
                = ',' :: ' ' :: (dumpsEntries ((k2, v2) :: kvs2) ++ '}' :: rest) := by
              simp [dumpsEntriesTail, dumpsEntries, List.append_assoc]
            have hk2l : (dumpsEntries ((k2, v2) :: kvs2)).length + 1 < f := by
              have h3 : (dumpsEntriesTail ((k2, v2) :: kvs2)).length
                  = (dumpsEntries ((k2, v2) :: kvs2)).length + 2 := by
                simp [dumpsEntriesTail, dumpsEntries]
              omega
            rw [htail, wsSkip_cons_nows (by decide)]
            split
            · rename_i heq
              cases heq
              rw [wsSkip_space]
              cases k2 with
              | int n => simp [strKeyedEntries] at hkvs
              | bool b => simp [strKeyedEntries] at hkvs
              | null => simp [strKeyedEntries] at hkvs
              | str ks2 =>
                have hhead : dumpsEntries ((PyKey.str ks2, v2) :: kvs2) ++ '}' :: rest
                    = '"' :: ((ks2.data.flatMap escChar ++ ['"'])
                      ++ ':' :: ' ' :: (dumpsV v2 ++ (dumpsEntriesTail kvs2 ++ '}' :: rest))) := by
                  simp [dumpsEntries, keyChars, strLit, List.append_assoc]
                rw [hhead, wsSkip_cons_nows (by decide), ← hhead,
                  rt_entries (PyKey.str ks2) v2 kvs2 f rest hkvs hk2l]
                rfl
            · rename_i heq
              exact absurd (List.head_eq_of_cons_eq heq) (by decide)
            · rename_i hno1 hno2
              exact (hno1 (' ' :: (dumpsEntries ((k2, v2) :: kvs2) ++ '}' :: rest)) rfl).elim
        · rename_i x hno
          exact (hno (' ' :: (dumpsV v ++ (dumpsEntriesTail kvs ++ '}' :: rest))) rfl).elim

end

theorem digitsCore_dec_ascii : ∀ (fuel n : Nat), ∀ c ∈ digitsCore 10 decDigit fuel n,
    c.toNat < 128
  | 0, n => by intro c hc; simp [digitsCore] at hc
  | fuel + 1, n => by
    intro c hc
    rw [digitsCore] at hc
    by_cases hn : n < 10
    · rw [if_pos hn] at hc
      simp only [List.mem_singleton] at hc
      subst hc
      rw [decDigit_toNat n hn]
      omega
    · rw [if_neg hn] at hc
      rcases List.mem_append.mp hc with h | h
      · exact digitsCore_dec_ascii fuel (n / 10) c h
      · simp only [List.mem_singleton] at h
        subst h
        rw [decDigit_toNat _ (Nat.mod_lt _ (by omega))]
        omega

theorem natChars_ascii (n : Nat) : ∀ c ∈ natChars n, c.toNat < 128 :=
  digitsCore_dec_ascii (n + 1) n

theorem intChars_ascii (i : Int) : ∀ c ∈ intChars i, c.toNat < 128 := by
  intro c hc
  unfold intChars at hc
  by_cases h : i < 0
  · rw [if_pos h] at hc
    rcases List.mem_cons.mp hc with h1 | h1
    · subst h1; decide
    · exact natChars_ascii _ c h1
  · rw [if_neg h] at hc
    exact natChars_ascii _ c hc

theorem hexDigit_ascii (k : Nat) (h : k < 16) : (hexDigit k).toNat < 128 := by
  unfold hexDigit
  by_cases h10 : k < 10
  · rw [if_pos h10, toNat_charOfNat _ (Or.inl (by omega))]
    omega
  · rw [if_neg h10, toNat_charOfNat _ (Or.inl (by omega))]
    omega

theorem uHex4_ascii (n : Nat) : ∀ c ∈ uHex4 n, c.toNat < 128 := by
  intro c hc
  simp only [uHex4, List.mem_cons, List.not_mem_nil, or_false] at hc
  rcases hc with rfl | rfl | rfl | rfl <;>
    exact hexDigit_ascii _ (Nat.mod_lt _ (by omega))

theorem escChar_ascii (c : Char) : ∀ x ∈ escChar c, x.toNat < 128 := by
  intro x hx
  unfold escChar at hx
  split_ifs at hx with h1 h2 h3 h4 h5 h6 h7 h8
  · simp only [List.mem_cons, List.not_mem_nil, or_false] at hx
    rcases hx with rfl | rfl <;> decide
  · simp only [List.mem_cons, List.not_mem_nil, or_false] at hx
    rcases hx with rfl | rfl <;> decide
  · simp only [List.mem_cons, List.not_mem_nil, or_false] at hx
    rcases hx with rfl | rfl <;> decide
  · simp only [List.mem_cons, List.not_mem_nil, or_false] at hx
    rcases hx with rfl | rfl <;> decide
  · simp only [List.mem_cons, List.not_mem_nil, or_false] at hx
    rcases hx with rfl | rfl <;> decide
  · simp only [List.mem_cons, List.not_mem_nil, or_false] at hx
    rcases hx with rfl | rfl <;> decide
  · simp only [List.mem_cons, List.not_mem_nil, or_false] at hx
    rcases hx with rfl | rfl <;> decide
  · rcases List.mem_cons.mp hx with rfl | hx1
    · decide
    · rcases List.mem_cons.mp hx1 with rfl | hx2
      · decide
      · exact uHex4_ascii _ x hx2
  · rcases List.mem_append.mp hx with hx1 | hx1 <;>
    · rcases List.mem_cons.mp hx1 with rfl | hx2
      · decide
      · rcases List.mem_cons.mp hx2 with rfl | hx3
        · decide
        · exact uHex4_ascii _ x hx3
  · simp only [List.mem_singleton] at hx
    subst hx
    push_neg at h7
    omega

theorem strLit_ascii (s : String) : ∀ x ∈ strLit s, x.toNat < 128 := by
  intro x hx
  simp only [strLit, List.mem_cons, List.mem_append, List.not_mem_nil, or_false] at hx
  rcases hx with rfl | hx | rfl
  · decide
  · obtain ⟨c, _, hmem⟩ := List.mem_flatMap.mp hx
    exact escChar_ascii c x hmem
  · decide

theorem keyChars_ascii (k : PyKey) : ∀ x ∈ keyChars k, x.toNat < 128 := by
  intro x hx
  cases k with
  | str s => exact strLit_ascii s x hx
  | int i =>
    simp only [keyChars, List.mem_cons, List.mem_append, List.not_mem_nil, or_false] at hx
    rcases hx with rfl | hx | rfl
    · decide
    · exact intChars_ascii i x hx
    · decide
  | bool b =>
    cases b with
    | true =>
      simp only [keyChars, List.mem_cons, List.not_mem_nil, or_false] at hx
      rcases hx with rfl | rfl | rfl | rfl | rfl | rfl <;> decide
    | false =>
      simp only [keyChars, List.mem_cons, List.not_mem_nil, or_false] at hx
      rcases hx with rfl | rfl | rfl | rfl | rfl | rfl | rfl <;> decide
  | null =>
    simp only [keyChars, List.mem_cons, List.not_mem_nil, or_false] at hx
    rcases hx with rfl | rfl | rfl | rfl | rfl | rfl <;> decide

mutual

theorem dumpsV_ascii : ∀ (v : PyVal), ∀ x ∈ dumpsV v, x.toNat < 128
  | .null => by
    intro x hx
    simp only [dumpsV, List.mem_cons, List.not_mem_nil, or_false] at hx
    rcases hx with rfl | rfl | rfl | rfl <;> decide
  | .bool true => by
    intro x hx
    simp only [dumpsV, List.mem_cons, List.not_mem_nil, or_false] at hx
    rcases hx with rfl | rfl | rfl | rfl <;> decide
  | .bool false => by
    intro x hx
    simp only [dumpsV, List.mem_cons, List.not_mem_nil, or_false] at hx
    rcases hx with rfl | rfl | rfl | rfl | rfl <;> decide
  | .int i => by
    intro x hx
    simp only [dumpsV] at hx
    exact intChars_ascii i x hx
  | .str s => by
    intro x hx
    simp only [dumpsV] at hx
    exact strLit_ascii s x hx
  | .list xs => by
    intro x hx
    simp only [dumpsV, List.mem_cons, List.mem_append, List.not_mem_nil, or_false] at hx
    rcases hx with rfl | hx | rfl
    · decide
    · exact dumpsItems_ascii xs x hx
    · decide
  | .dict kvs => by
    intro x hx
    simp only [dumpsV, List.mem_cons, List.mem_append, List.not_mem_nil, or_false] at hx
    rcases hx with rfl | hx | rfl
    · decide
    · exact dumpsEntries_ascii kvs x hx
    · decide
  | .foreign t => by
    intro x hx
    simp only [dumpsV, List.not_mem_nil] at hx

theorem dumpsItems_ascii : ∀ (xs : List PyVal), ∀ x ∈ dumpsItems xs, x.toNat < 128
  | [] => by intro x hx; simp only [dumpsItems, List.not_mem_nil] at hx
  | v :: xs => by
    intro x hx
    simp only [dumpsItems] at hx
    rcases List.mem_append.mp hx with h | h
    · exact dumpsV_ascii v x h
    · exact dumpsItemsTail_ascii xs x h

theorem dumpsItemsTail_ascii : ∀ (xs : List PyVal), ∀ x ∈ dumpsItemsTail xs, x.toNat < 128
  | [] => by intro x hx; simp only [dumpsItemsTail, List.not_mem_nil] at hx
  | v :: xs => by
    intro x hx
    simp only [dumpsItemsTail, List.mem_cons] at hx
    rcases hx with rfl | rfl | hx1
    · decide
    · decide
    · rcases List.mem_append.mp hx1 with h | h
      · exact dumpsV_ascii v x h
      · exact dumpsItemsTail_ascii xs x h

theorem dumpsEntries_ascii : ∀ (kvs : List (PyKey × PyVal)), ∀ x ∈ dumpsEntries kvs,
    x.toNat < 128
  | [] => by intro x hx; simp only [dumpsEntries, List.not_mem_nil] at hx
  | (k, v) :: kvs => by
    intro x hx
    simp only [dumpsEntries, List.mem_append, List.mem_cons] at hx
    rcases hx with h | rfl | rfl | h
    · exact keyChars_ascii k x h
    · decide
    · decide
    · rcases h with h1 | h1
      · exact dumpsV_ascii v x h1
      · exact dumpsEntriesTail_ascii kvs x h1

theorem dumpsEntriesTail_ascii : ∀ (kvs : List (PyKey × PyVal)), ∀ x ∈ dumpsEntriesTail kvs,
    x.toNat < 128
  | [] => by intro x hx; simp only [dumpsEntriesTail, List.not_mem_nil] at hx
  | (k, v) :: kvs => by
    intro x hx
    simp only [dumpsEntriesTail, List.mem_cons, List.mem_append] at hx
    rcases hx with rfl | rfl | h | rfl | rfl | h
    · decide
    · decide
    · exact keyChars_ascii k x h
    · decide
    · decide
    · rcases h with h1 | h1
      · exact dumpsV_ascii v x h1
      · exact dumpsEntriesTail_ascii kvs x h1

end

theorem utf8Char_ascii_eq {c : Char} (h : c.toNat < 128) : utf8Char c = [c.toNat] := by
  unfold utf8Char
  exact if_pos h

theorem utf8Core_ascii : ∀ (l : List Char) (f : Nat), (utf8Bytes l).length ≤ f →
    (∀ c ∈ l, c.toNat < 128) → utf8DecodeCore [] f (utf8Bytes l) = l := by
  intro l
  induction l with
  | nil =>
    intro f _ _
    cases f <;> rfl
  | cons c l ih =>
    intro f hf h
    have hc : c.toNat < 128 := h c (List.mem_cons_self c l)
    have hl : ∀ x ∈ l, x.toNat < 128 := fun x hx => h x (List.mem_cons_of_mem c hx)
    have hb : utf8Bytes (c :: l) = c.toNat :: utf8Bytes l := by
      rw [show utf8Bytes (c :: l) = utf8Char c ++ utf8Bytes l from rfl,
        utf8Char_ascii_eq hc]
      rfl
    rw [hb] at hf ⊢
    match f, hf with
    | f + 1, hf =>
      simp only [utf8DecodeCore]
      rw [if_pos hc, Char.ofNat_toNat, ih f (by simpa using hf) hl]

theorem utf8_ascii_roundtrip (l : List Char) (h : ∀ c ∈ l, c.toNat < 128) :
    utf8DecodeWith [] (utf8Bytes l) = l :=
  utf8Core_ascii l (utf8Bytes l).length le_rfl h

theorem pyStrip_wrap (l : List Char) :
    pyStripChars (('{' :: (l ++ ['}'])) ++ ['\n']) = '{' :: (l ++ ['}']) := by
  unfold pyStripChars
  rw [show ('{' :: (l ++ ['}'])) ++ ['\n'] = '{' :: (l ++ ['}', '\n']) by simp]
  rw [List.dropWhile_cons_of_neg (by decide)]
  rw [show ('{' :: (l ++ ['}', '\n'])).reverse = '\n' :: '}' :: (l.reverse ++ ['{']) by simp]
  rw [List.dropWhile_cons_of_pos (by decide), List.dropWhile_cons_of_neg (by decide)]
  simp

theorem loadsChars_dumpsV (v : PyVal) (hv : strKeyed v = true) :
    loadsChars (dumpsV v) = some v := by
  obtain ⟨c0, t0, h0, hws, _, _⟩ := dumpsHead v hv
  have hp : pVal ((dumpsV v).length + 1) (dumpsV v) = some (v, []) := by
    have := rt_val v ((dumpsV v).length + 1) [] hv (by omega) rfl
    rwa [List.append_nil] at this
  unfold loadsChars
  rw [h0, wsSkip_cons_nows hws, ← h0, hp]
  rfl

/-- C3: for a dictionary whose keys are all strings (at every nesting level),
whatever bytes `JsonNewlineProtocol.encode` produces, `decode` maps them back
to the same dictionary; and a dictionary holding a non-JSON-representable
value is rejected by `encode` (it returns `None`) rather than producing
bytes.  (Dictionaries with non-string keys fall outside the first part: they
encode, but `json.dumps` coerces their keys to strings, so the round trip
returns a different dictionary — see the counterexample above.) -/
theorem json_newline_roundtrip (kvs : List (PyKey × PyVal)) :
    (∀ bs, strKeyed (.dict kvs) = true →
      jsonNewlineEncode (.dict kvs) = some bs →
      jsonNewlineDecode bs = some (.dict kvs)) ∧
    (jsonOk (.dict kvs) = false → jsonNewlineEncode (.dict kvs) = none) := by
  constructor
  · intro bs hsk henc
    unfold jsonNewlineEncode at henc
    by_cases hok : jsonOk (.dict kvs) = true
    · rw [if_pos hok] at henc
      have hbs : bs = utf8Bytes (dumpsV (.dict kvs)) ++ [10] :=
        (Option.some.injEq _ _ ▸ henc).symm
      subst hbs
      have hascii : ∀ c ∈ dumpsV (.dict kvs) ++ ['\n'], c.toNat < 128 := by
        intro c hc
        rcases List.mem_append.mp hc with h | h
        · exact dumpsV_ascii _ c h
        · simp only [List.mem_singleton] at h
          subst h
          decide
      have hb10 : utf8Bytes (dumpsV (.dict kvs)) ++ [10]
          = utf8Bytes (dumpsV (.dict kvs) ++ ['\n']) := by
        rw [show utf8Bytes (dumpsV (.dict kvs) ++ ['\n'])
            = utf8Bytes (dumpsV (.dict kvs)) ++ utf8Bytes ['\n'] by
          simp [utf8Bytes]]
        rfl
      unfold jsonNewlineDecode
      rw [hb10, utf8_ascii_roundtrip _ hascii]
      have hshape : dumpsV (.dict kvs) ++ ['\n']
          = ('{' :: (dumpsEntries kvs ++ ['}'])) ++ ['\n'] := by
        simp [dumpsV]
      rw [hshape, pyStrip_wrap]
      rw [if_neg (by simp)]
      have hback : '{' :: (dumpsEntries kvs ++ ['}']) = dumpsV (.dict kvs) := by
        simp [dumpsV]
      rw [hback, loadsChars_dumpsV _ hsk]
    · rw [if_neg hok] at henc
      exact absurd henc (by simp)
  · intro hbad
    unfold jsonNewlineEncode
    rw [if_neg (by simp [hbad])]

/-- Witness: the dictionary `{'a': 1}` encodes to `b'{"a": 1}\n'` and, by the
round-trip theorem, decodes back to itself. -/
theorem json_newline_roundtrip_witness :
    strKeyed (.dict [(.str "a", .int 1)]) = true ∧
    jsonNewlineEncode (.dict [(.str "a", .int 1)])
      = some [123, 34, 97, 34, 58, 32, 49, 125, 10] ∧
    jsonNewlineDecode [123, 34, 97, 34, 58, 32, 49, 125, 10]
      = some (.dict [(.str "a", .int 1)]) :=
  ⟨rfl, rfl, (json_newline_roundtrip [(.str "a", .int 1)]).1 _ rfl rfl⟩
